import Mathlib

/-!
Shallow embedding of the rpcdiff comparison engine (vmkteam/rpcdiff).

The embedding follows the current implementation (the source file defining
`NewDiffBytes`, `compareDocument`, `compareJSONSchema`, `detectRequiredInput`,
...).  Go values are modelled as follows:

* the document model (`openrpc.OpenrpcDocument` and friends) becomes a family
  of Lean structures; nilable Go pointers become `Option`;
* `interface{}` values handed to the generic `compare` constructor become the
  closed sum `Value`; a nil interface or a nil pointer becomes `Value.null`,
  and `reflect.DeepEqual` becomes the structural boolean equality `veq`;
* the generic reflective differ (`compareRecursive`, `getMap`,
  `getIdentifier`) is specialised, at each call site, to the concrete type the
  source applies it to (string slices for `required` lists, error lists keyed
  by the error-code identifier tag, struct fields keyed by their json tags
  with `omitempty` semantics);
* Go code that dereferences a possibly-nil pointer without a guard (a run
  time panic) is modelled by returning `none`: a comparison function of type
  `Option (List Change)` yields `none` exactly when the Go original panics;
* Go map iteration order is unspecified at run time; the embedding fixes a
  canonical order (old-side traversal order, then remaining new-side entries)
  and, for `compareMethods`, additionally exposes the iteration order as an
  explicit parameter (`compareMethodsOrd`) so that order dependence can be
  stated.
-/

namespace Rpcdiff

/-- `CriticalityLevel` (BREAKING / NON_BREAKING / DANGEROUS). -/
inductive CriticalityLevel where
  | breaking
  | nonBreaking
  | dangerous
deriving DecidableEq, Repr

/-- `ChangeType` (ADDED / REMOVED / CHANGED). -/
inductive ChangeType where
  | added
  | removed
  | changed
deriving DecidableEq, Repr

/-- `ChangeObject`: the semantic tag attached to a change. -/
inductive ChangeObject where
  | openRPCVersion
  | schemaInfo
  | schemaServers
  | method
  | methodParamStructure
  | methodParam
  | methodParamType
  | methodResult
  | methodResultType
  | methodError
  | componentsSchema
  | componentsSchemaType
  | componentsSchemaProperty
  | componentsSchemaPropertyType
  | componentsDescriptor
  | componentsDescriptorType
  | other
deriving DecidableEq, Repr

/-- `openrpc.Type`: the source only ever reads its `SimpleType` field. -/
structure TypeT where
  simpleType : String
deriving DecidableEq, Repr

/-- `openrpc.ErrorObject`: numeric code (the identity key) and message. -/
structure ErrorObj where
  code : Int
  message : String
deriving DecidableEq, Repr

/-- `openrpc.JSONSchema` (collapsed with its inner `JSONSchemaObject`).
`type` is the nilable `*openrpc.Type`; `items` the nilable items schema (the
source reads it through `old.Items.JSONSchema`); `properties` the nilable
`*openrpc.SchemaMap`, a slice of schemas each carrying its `Id`.  Scalar
metadata beyond `title` / `description` is not modelled (no claim concerns
it); `id` is populated from the schema-map key by the document model. -/
inductive JSONSchema where
  | mk (id : String) (title : String) (ref : String) (description : String)
       (type : Option TypeT) (items : Option JSONSchema)
       (required : List String) (properties : Option (List JSONSchema))

def JSONSchema.id : JSONSchema → String
  | .mk i _ _ _ _ _ _ _ => i

def JSONSchema.title : JSONSchema → String
  | .mk _ t _ _ _ _ _ _ => t

def JSONSchema.ref : JSONSchema → String
  | .mk _ _ r _ _ _ _ _ => r

def JSONSchema.description : JSONSchema → String
  | .mk _ _ _ d _ _ _ _ => d

def JSONSchema.type : JSONSchema → Option TypeT
  | .mk _ _ _ _ t _ _ _ => t

def JSONSchema.items : JSONSchema → Option JSONSchema
  | .mk _ _ _ _ _ it _ _ => it

def JSONSchema.required : JSONSchema → List String
  | .mk _ _ _ _ _ _ r _ => r

def JSONSchema.properties : JSONSchema → Option (List JSONSchema)
  | .mk _ _ _ _ _ _ _ p => p

/-- Structural equality on schemas: this is what `reflect.DeepEqual` computes
on two `openrpc.JSONSchema` values. -/
def jeq : JSONSchema → JSONSchema → Bool
  | .mk i1 t1 r1 d1 ty1 it1 rq1 p1, .mk i2 t2 r2 d2 ty2 it2 rq2 p2 =>
      (i1 = i2 : Bool) && (t1 = t2 : Bool) && (r1 = r2 : Bool) && (d1 = d2 : Bool)
      && (ty1 = ty2 : Bool) && (rq1 = rq2 : Bool)
      && (match it1, it2 with
          | none, none => true
          | some a, some b => jeq a b
          | _, _ => false)
      && (match p1, p2 with
          | none, none => true
          | some a, some b => jeqList a b
          | _, _ => false)
where
  jeqList : List JSONSchema → List JSONSchema → Bool
    | [], [] => true
    | a :: as, b :: bs => jeq a b && jeqList as bs
    | _, _ => false

/-- `reflect.DeepEqual` on two `*openrpc.JSONSchema` pointers. -/
def jeqOpt : Option JSONSchema → Option JSONSchema → Bool
  | none, none => true
  | some a, some b => jeq a b
  | _, _ => false

/-- `reflect.DeepEqual` on two `*openrpc.SchemaMap` pointers. -/
def jeqOptList : Option (List JSONSchema) → Option (List JSONSchema) → Bool
  | none, none => true
  | some a, some b => jeq.jeqList a b
  | _, _ => false

/-- `openrpc.ContentDescriptorObject`: name (identity key), required flag,
nilable `*openrpc.JSONSchema`, summary, description. -/
structure CDObj where
  name : String
  required : Bool
  schema : Option JSONSchema
  summary : String
  description : String

/-- `openrpc.ContentDescriptorOrReference`: exactly one of the two embedded
pointers (`*ContentDescriptorObject`, `*ReferenceObject`) is set; a
`ReferenceObject` is collapsed to its `Ref` string. -/
inductive Param where
  | cd (c : CDObj)
  | ref (r : String)

/-- `reflect.DeepEqual` on content descriptor objects. -/
def cdeq (a b : CDObj) : Bool :=
  (a.name = b.name : Bool) && (a.required = b.required : Bool)
  && jeqOpt a.schema b.schema
  && (a.summary = b.summary : Bool) && (a.description = b.description : Bool)

/-- `reflect.DeepEqual` on content-descriptor-or-reference values. -/
def peq : Param → Param → Bool
  | .cd a, .cd b => cdeq a b
  | .ref a, .ref b => (a = b : Bool)
  | _, _ => false

/-- `reflect.DeepEqual` on nilable content-descriptor-or-reference values
(used for `*openrpc.MethodObjectResult`). -/
def peqOpt : Option Param → Option Param → Bool
  | none, none => true
  | some a, some b => peq a b
  | _, _ => false

/-- `openrpc.MethodObject` (tags and the remaining metadata fields are not
modelled: no claim concerns them).  `result` is the nilable
`*MethodObjectResult`, itself a content-descriptor-or-reference;
`paramStructure` is the enum string, `"either"` being
`MethodObjectParamStructureEnum2`. -/
structure MethodObj where
  name : String
  summary : String
  description : String
  paramStructure : String
  params : List Param
  result : Option Param
  errors : List ErrorObj

/-- `reflect.DeepEqual` on method objects. -/
def meq (a b : MethodObj) : Bool :=
  (a.name = b.name : Bool) && (a.summary = b.summary : Bool)
  && (a.description = b.description : Bool)
  && (a.paramStructure = b.paramStructure : Bool)
  && peqList a.params b.params
  && peqOpt a.result b.result
  && (a.errors = b.errors : Bool)
where
  peqList : List Param → List Param → Bool
    | [], [] => true
    | x :: xs, y :: ys => peq x y && peqList xs ys
    | _, _ => false

/-- `openrpc.InfoObject` (title / version / description subset). -/
structure InfoObj where
  title : String
  version : String
  description : String
deriving DecidableEq, Repr

/-- `openrpc.ServerObject` (name / url subset). -/
structure ServerObj where
  name : String
  url : String
deriving DecidableEq, Repr

/-- `openrpc.Components`: the nilable schema map (`compareComponents` only
ever compares `Schemas`). -/
structure ComponentsObj where
  schemas : Option (List JSONSchema)

/-- `openrpc.OpenrpcDocument`: `info` and `components` are nilable
pointers. -/
structure Doc where
  openrpc : String
  info : Option InfoObj
  servers : List ServerObj
  methods : List MethodObj
  components : Option ComponentsObj

/-- The `interface{}` values the source stores in `Change.Old` / `Change.New`.
`null` models a nil interface or a nil pointer. -/
inductive Value where
  | null
  | vstr (s : String)
  | vbool (b : Bool)
  | vint (i : Int)
  | vtype (t : TypeT)
  | vschema (s : JSONSchema)
  | vschemaList (l : List JSONSchema)
  | vparam (p : Param)
  | vmethod (m : MethodObj)
  | verror (e : ErrorObj)
  | vref (r : String)
  | vcd (c : CDObj)
  | vinfo (i : InfoObj)
  | vserver (s : ServerObj)

/-- `reflect.DeepEqual` on the modelled `interface{}` values.  Two values of
different dynamic type are never deeply equal. -/
def veq : Value → Value → Bool
  | .null, .null => true
  | .vstr a, .vstr b => (a = b : Bool)
  | .vbool a, .vbool b => (a = b : Bool)
  | .vint a, .vint b => (a = b : Bool)
  | .vtype a, .vtype b => (a = b : Bool)
  | .vschema a, .vschema b => jeq a b
  | .vschemaList a, .vschemaList b => jeq.jeqList a b
  | .vparam a, .vparam b => peq a b
  | .vmethod a, .vmethod b => meq a b
  | .verror a, .verror b => (a = b : Bool)
  | .vref a, .vref b => (a = b : Bool)
  | .vcd a, .vcd b => cdeq a b
  | .vinfo a, .vinfo b => (a = b : Bool)
  | .vserver a, .vserver b => (a = b : Bool)
  | _, _ => false

/-- `isNil` on the modelled `interface{}` values. -/
def Value.isNull : Value → Bool
  | .null => true
  | _ => false

/-- The `Change` record: path, kind, semantic tag, severity, old and new
values. -/
structure Change where
  path : List String
  type : ChangeType
  object : ChangeObject
  criticality : CriticalityLevel
  old : Value
  new : Value

/-- `Options`: the single recognized option. -/
structure Options where
  showMeta : Bool
deriving DecidableEq, Repr

/-- `matchPath`: a path matches a pattern iff it is at least as long and every
pattern segment equals the corresponding path segment or is the wildcard.
Patterns are kept pre-split on the dots of the source's pattern strings. -/
def matchPath : List String → List String → Bool
  | _, [] => true
  | [], _ :: _ => false
  | s :: ss, p :: ps => (p = "*" || p = s) && matchPath ss ps

/-- `objectPaths`: the ordered pattern table (source order preserved; each
entry of the Go slice is a singleton map, hence an ordered association
list). -/
def objectPaths : List (List String × ChangeObject) :=
  [ (["openrpc"], .openRPCVersion)
  , (["info", "version"], .openRPCVersion)
  , (["info"], .schemaInfo)
  , (["servers"], .schemaServers)
  , (["methods", "*", "paramStructure"], .methodParamStructure)
  , (["methods", "*", "params", "*", "schema"], .methodParamType)
  , (["methods", "*", "params", "*", "$ref"], .methodParamType)
  , (["methods", "*", "params"], .methodParam)
  , (["methods", "*", "result", "type"], .methodResultType)
  , (["methods", "*", "result", "$ref"], .methodResultType)
  , (["methods", "*", "result"], .methodResult)
  , (["methods", "*", "errors"], .methodError)
  , (["methods"], .method)
  , (["components", "schemas", "*", "type"], .componentsSchemaType)
  , (["components", "schemas", "*", "properties", "*", "type"], .componentsSchemaPropertyType)
  , (["components", "schemas", "*", "properties", "*", "schema"], .componentsSchemaPropertyType)
  , (["components", "schemas", "*", "properties", "*", "$ref"], .componentsSchemaPropertyType)
  , (["components", "schemas", "*", "properties"], .componentsSchemaProperty)
  , (["components", "schemas"], .componentsSchema)
  , (["components", "contentDescriptors", "*", "schema"], .componentsDescriptorType)
  , (["components", "contentDescriptors"], .componentsDescriptor)
  ]

/-- `detectObjectType`: first matching pattern wins, `Other` as fallback. -/
def detectObjectType (path : List String) : ChangeObject :=
  go objectPaths
where
  go : List (List String × ChangeObject) → ChangeObject
    | [] => .other
    | (pat, obj) :: rest => if matchPath path pat then obj else go rest

/-- `detectChangeType`: Added when old is nil, Removed when new is nil,
Changed otherwise. -/
def detectChangeType (old new : Value) : ChangeType :=
  if old.isNull then .added
  else if new.isNull then .removed
  else .changed

/-- `compare`: the generic change constructor; yields no change when old and
new are deeply equal. -/
def compare (old new : Value) (path : List String) (level : CriticalityLevel) :
    Option Change :=
  if veq old new then none
  else some ⟨path, detectChangeType old new, detectObjectType path, level, old, new⟩

/-- The severity-folding loop of `NewDiffBytes`: starting from NonBreaking, a
Dangerous change raises the accumulator to Dangerous and a Breaking change
ends the loop at Breaking. -/
def diffCriticalityLoop : List Change → CriticalityLevel → CriticalityLevel
  | [], acc => acc
  | c :: rest, acc =>
      let acc' := if c.criticality = .dangerous then CriticalityLevel.dangerous else acc
      if c.criticality = .breaking then .breaking else diffCriticalityLoop rest acc'

/-- The `Diff` result: overall criticality plus the change list. -/
structure Diff where
  criticality : CriticalityLevel
  changes : List Change

/-- Insertion into a Go map modelled as an association list: an existing key
is overwritten in place, a fresh key is appended. -/
def upsert (m : List (String × α)) (k : String) (v : α) : List (String × α) :=
  if m.any (fun p => p.1 = k) then
    m.map (fun p => if p.1 = k then (k, v) else p)
  else m ++ [(k, v)]

/-- Building a Go map keyed by `key` from a slice (`for _, x := range xs {
m[key(x)] = x }`).  Iteration over the resulting association list stands for
one arbitrary-but-fixed iteration order of the Go map. -/
def toMap (key : α → String) (xs : List α) : List (String × α) :=
  xs.foldl (fun m x => upsert m (key x) x) []

/-- `compareRecursive` specialised to one exported struct string field whose
json tag carries `omitempty`: a zero (empty) field is absent from the field
map built by `getMap`, so one side being empty registers as Added/Removed
rather than Changed. -/
def compareStrField (oldF newF : String) (path : List String) : List Change :=
  if oldF = "" ∧ newF = "" then []
  else if oldF = "" then (compare .null (.vstr newF) path .nonBreaking).toList
  else if newF = "" then (compare (.vstr oldF) .null path .nonBreaking).toList
  else (compare (.vstr oldF) (.vstr newF) path .nonBreaking).toList

/-- `compareRecursive` specialised to two `[]string` values (the `required`
lists): slice elements carry no identity key, so `getMap` keys them by
decimal index; matched indices compare as scalars, surplus indices register
as Removed (old side) or Added (new side), every change NonBreaking.  The
embedding iterates indices in ascending order (the Go map order is
unspecified). -/
def cslAdded (path : List String) : List String → Nat → List Change
  | [], _ => []
  | n :: ns, i =>
      (compare .null (.vstr n) (path ++ [toString i]) .nonBreaking).toList
      ++ cslAdded path ns (i + 1)

def cslAux (path : List String) : List String → List String → Nat → List Change
  | [], ns, i => cslAdded path ns i
  | o :: os, [], i =>
      (compare (.vstr o) .null (path ++ [toString i]) .nonBreaking).toList
      ++ cslAux path os [] (i + 1)
  | o :: os, n :: ns, i =>
      (compare (.vstr o) (.vstr n) (path ++ [toString i]) .nonBreaking).toList
      ++ cslAux path os ns (i + 1)

def compareStringList (old new : List String) (path : List String) : List Change :=
  cslAux path old new 0

/-- The post-processing loop `compareJSONSchema` applies to the changes of the
`required` section: an Added entry of a required-input schema is upgraded to
Breaking in place. -/
def upgradeRequired (isInput : Bool) (cs : List Change) : List Change :=
  cs.map (fun c => if c.type = .added ∧ isInput then { c with criticality := .breaking } else c)

/-- `compareType`: nil mismatches are Breaking; otherwise the `SimpleType`
strings are compared, Breaking except for the sanctioned integer-to-number
widening. -/
def compareType (_opts : Options) (old new : Option TypeT) (path : List String) :
    Option Change :=
  if old = new then none
  else match old, new with
  | none, none => none
  | none, some t => compare .null (.vtype t) path .breaking
  | some t, none => compare (.vtype t) .null path .breaking
  | some o, some n =>
      let level :=
        if (o.simpleType = "integer" ∨ o.simpleType = "int")
            ∧ (n.simpleType = "number" ∨ n.simpleType = "float") then
          CriticalityLevel.nonBreaking
        else CriticalityLevel.breaking
      compare (.vstr o.simpleType) (.vstr n.simpleType) path level

/-- `compareRef` once both sides hold reference values of the same kind: the
two `Ref` strings are extracted and compared, empty strings standing in for a
missing side; every emitted change is Breaking. -/
def compareRefVals (r1 r2 : String) (path : List String) : Option Change :=
  if r1 = r2 then none
  else if r1 = "" then compare .null (.vstr r2) path .breaking
  else if r2 = "" then compare (.vstr r1) .null path .breaking
  else compare (.vstr r1) (.vstr r2) path .breaking

/-- `SchemaMap.Get`: linear lookup by `Id`. -/
def schemaMapGet (l : List JSONSchema) (id : String) : Option JSONSchema :=
  l.find? (fun s => s.id = id)

theorem sizeOf_items_field_lt (old : JSONSchema) : sizeOf old.items < sizeOf old := by
  obtain ⟨i, t, r, d, ty, it, rq, p⟩ := old
  simp only [JSONSchema.items, JSONSchema.mk.sizeOf_spec]
  omega

theorem sizeOf_props_field_lt (old : JSONSchema) : sizeOf old.properties < sizeOf old := by
  obtain ⟨i, t, r, d, ty, it, rq, p⟩ := old
  simp only [JSONSchema.properties, JSONSchema.mk.sizeOf_spec]
  omega

/-!
`compareJSONSchema` and its sections.  Section order follows the source:
deep-equality shortcut, reference-versus-object shape mismatch, `$ref`,
`type`, `items`, `required` (with the Added-and-required-input upgrade),
`properties`, then the remaining scalar fields (with `required`, `items`,
`type`, `$ref` and `properties` excluded from the generic pass).

`itemsSection` is the items block: on two present items it recurses (the
recursion's own deep-equality shortcut plays the role of the source's
`reflect.DeepEqual(old.Items, new.Items)` guard); the source quirk on a
removed `items` is preserved: `compare(new.Items, nil, ...)` passes the
typed-nil pointer as the old value, which `reflect.DeepEqual` distinguishes
from the untyped nil while `detectChangeType` classifies it as Added.

`propsSection` is `compareJSONSchemaProperties` and `propsCore` its old-side
loop: properties found in the new map (by `Id`) recurse, missing ones
register as Removed with Dangerous severity, properties only on the new side
are Added with NonBreaking severity.
-/
mutual

def compareJSONSchema (opts : Options) (old new : JSONSchema) (path : List String)
    (isInput : Bool) : List Change :=
  if jeq old new then []
  else if ((old.ref == "") != (new.ref == "")) then
    (compare (.vschema old) (.vschema new) path .breaking).toList
  else (compareRefVals old.ref new.ref (path ++ ["$ref"])).elim
    ((compareType opts old.type new.type (path ++ ["type"])).toList
      ++ itemsSection opts path isInput old.items new.items
      ++ upgradeRequired isInput
          (compareStringList old.required new.required (path ++ ["required"]))
      ++ propsSection opts path isInput old.properties new.properties
      ++ compareStrField old.title new.title (path ++ ["title"])
      ++ compareStrField old.description new.description (path ++ ["description"]))
    (fun c => [c])
termination_by sizeOf old
decreasing_by
  all_goals simp_wf
  all_goals first
    | exact sizeOf_items_field_lt old
    | exact sizeOf_props_field_lt old

def itemsSection (opts : Options) (path : List String) (isInput : Bool) :
    Option JSONSchema → Option JSONSchema → List Change
  | none, none => []
  | some oi, some ni => compareJSONSchema opts oi ni (path ++ ["items"]) isInput
  | none, some ni => (compare .null (.vschema ni) (path ++ ["items"]) .breaking).toList
  | some _, none =>
      [⟨path ++ ["items"], .added, detectObjectType (path ++ ["items"]), .breaking,
        .null, .null⟩]
termination_by o _ => sizeOf o
decreasing_by
  all_goals simp_wf
  all_goals omega

def propsSection (opts : Options) (path : List String) (isInput : Bool) :
    Option (List JSONSchema) → Option (List JSONSchema) → List Change
  | none, none => []
  | none, some nl =>
      (compare .null (.vschemaList nl) (path ++ ["properties"]) .nonBreaking).toList
  | some ol, none =>
      (compare (.vschemaList ol) .null (path ++ ["properties"]) .nonBreaking).toList
  | some ol, some nl =>
      if jeq.jeqList ol nl then []
      else
        propsCore opts nl (path ++ ["properties"]) isInput ol
        ++ (nl.filter (fun ns => !(ol.any (fun s => s.id == ns.id)))).map
            (fun ns =>
              ⟨path ++ ["properties", ns.id], .added,
               detectObjectType (path ++ ["properties", ns.id]), .nonBreaking,
               .null, .vschema ns⟩)
termination_by o _ => sizeOf o
decreasing_by
  all_goals simp_wf
  all_goals omega

def propsCore (opts : Options) (nl : List JSONSchema) (path : List String)
    (isInput : Bool) : List JSONSchema → List Change
  | [] => []
  | s :: rest =>
      (schemaMapGet nl s.id).elim
        [⟨path ++ [s.id], .removed, detectObjectType (path ++ [s.id]), .dangerous,
          .vschema s, .null⟩]
        (fun ns => compareJSONSchema opts s ns (path ++ [s.id]) isInput)
      ++ propsCore opts nl path isInput rest
termination_by ol => sizeOf ol
decreasing_by
  all_goals simp_wf
  all_goals first
    | omega
    | (have hlt := List.sizeOf_lt_of_mem (List.mem_cons_self s rest); omega)

end

/-- The schema reference a parameter carries: a bare reference contributes its
`Ref`; an inline descriptor contributes its schema's `Ref` when the schema is
present, the empty string otherwise. -/
def paramSchemaRef : Param → String
  | .ref r => r
  | .cd c =>
      match c.schema with
      | some s => s.ref
      | none => ""

/-- One parameter test of `detectRequiredInput`: on a reference hit at depth
zero the source evaluates `param.Required`, which promotes through the nil
`ContentDescriptorObject` of a bare reference — a panic, modelled as
`none`. -/
def paramHit (p : Param) (ref : String) (level : Nat) : Option Bool :=
  if paramSchemaRef p = ref then
    if level = 0 then
      match p with
      | .cd c => some c.required
      | .ref _ => none
    else some true
  else some false

/-- Short-circuiting scan over a method's parameters. -/
def scanParams (ref : String) (level : Nat) : List Param → Option Bool
  | [] => some false
  | p :: rest =>
      match paramHit p ref level with
      | none => none
      | some true => some true
      | some false => scanParams ref level rest

/-- Short-circuiting scan over all methods. -/
def scanMethods (ref : String) (level : Nat) : List MethodObj → Option Bool
  | [] => some false
  | m :: rest =>
      match scanParams ref level m.params with
      | none => none
      | some true => some true
      | some false => scanMethods ref level rest

/-- The inner property loop of `detectRequiredInput`: a property referencing
the target whose title is in the enclosing schema's required list recurses
(through the continuation `recurse`, applied to the enclosing schema's id). -/
def scanProps (recurse : String → Option Bool) (ref : String) (s : JSONSchema) :
    List JSONSchema → Option Bool
  | [] => some false
  | prop :: rest =>
      if prop.ref = ref ∧ s.required.contains prop.title then
        match recurse s.id with
        | none => none
        | some true => some true
        | some false => scanProps recurse ref s rest
      else scanProps recurse ref s rest

/-- The outer schema loop of `detectRequiredInput`: schemas without
properties and schemas already on the path are skipped. -/
def scanSchemas (recurse : String → Option Bool) (checked : List String)
    (ref : String) : List JSONSchema → Option Bool
  | [] => some false
  | s :: rest =>
      match (if s.properties.isNone then some false
             else if checked.contains s.id then some false
             else scanProps recurse ref s (s.properties.getD [])) with
      | none => none
      | some true => some true
      | some false => scanSchemas recurse checked ref rest

/-- The recursion of `detectRequiredInput`, made structural on an explicit
fuel.  The wrapper calls it with `fuel = 6 - level`, so fuel zero coincides
with the source's `level > 5` guard, and the recursive call at `level + 1`
receives `6 - (level + 1)`: the two presentations agree on every input. -/
def driAux : Nat → String → Doc → List String → Nat → Option Bool
  | 0, _, _, _, _ => some false
  | fuel + 1, name, doc, checked, level =>
      let ref := "#/components/schemas/" ++ name
      match scanMethods ref level doc.methods with
      | none => none
      | some true => some true
      | some false =>
          match doc.components with
          | none => some false
          | some comps =>
              match comps.schemas with
              | none => some false
              | some schemas =>
                  scanSchemas
                    (fun sid => driAux fuel sid doc (checked ++ [name]) (level + 1))
                    checked ref schemas

/-- `detectRequiredInput`: bounded search deciding whether the named shared
schema is reachable as a required input.  Returns `none` when the Go code
panics (a depth-zero reference hit on a bare-reference parameter). -/
def detectRequiredInput (name : String) (doc : Doc) (checked : List String)
    (level : Nat) : Option Bool :=
  driAux (6 - level) name doc checked level

def Param.isRefP : Param → Bool
  | .ref _ => true
  | .cd _ => false

/-- `param.Name`, defined on the inline descriptors the callers guard for. -/
def Param.nameKey : Param → String
  | .cd c => c.name
  | .ref _ => ""

/-- `param.Required`, defined on the inline descriptors the callers guard
for. -/
def Param.requiredF : Param → Bool
  | .cd c => c.required
  | .ref _ => false

/-- `compareContentDescriptor`.  The branch order follows the source:
descriptor-to-reference and reference-to-descriptor shape changes, the
`$ref` comparison, the required flag, the schema (an unguarded `*old.Schema`
/ `*new.Schema` dereference: `none` when a schema is missing), then summary
and description.  Two references with an equal `Ref` fall through
`compareRef` and reach `old.Required`, promoting through the nil
`ContentDescriptorObject`: `none`. -/
def compareContentDescriptor (opts : Options) (old new : Param)
    (path : List String) (isInput : Bool) : Option (List Change) :=
  match old, new with
  | .cd o, .ref r => some ((compare (.vcd o) (.vref r) path .breaking).toList)
  | .ref r, .cd n => some ((compare (.vref r) (.vcd n) path .breaking).toList)
  | .ref a, .ref b =>
      match compareRefVals a b (path ++ ["$ref"]) with
      | some c => some [c]
      | none => none
  | .cd o, .cd n =>
      let reqCs :=
        if o.required != n.required then
          (compare (.vbool o.required) (.vbool n.required) (path ++ ["required"])
            (if n.required then .breaking else .nonBreaking)).toList
        else []
      match o.schema, n.schema with
      | some so, some sn =>
          some (reqCs
            ++ compareJSONSchema opts so sn (path ++ ["schema"]) isInput
            ++ (if o.summary != n.summary then
                  (compare (.vstr o.summary) (.vstr n.summary) (path ++ ["summary"])
                    .nonBreaking).toList
                else [])
            ++ (if o.description != n.description then
                  (compare (.vstr o.description) (.vstr n.description)
                    (path ++ ["description"]) .nonBreaking).toList
                else []))
      | _, _ => none

/-- The old-side loop of `compareMethodParams`: names found in the new map
recurse into `compareContentDescriptor` (with `isInput = true`), missing
names register as Removed with NonBreaking severity. -/
def cmpParamsMatched (opts : Options) (newM : List (String × Param))
    (path : List String) : List (String × Param) → Option (List Change)
  | [] => some []
  | (k, op) :: rest =>
      match (match newM.lookup k with
             | some np => compareContentDescriptor opts op np (path ++ [k]) true
             | none => some ((compare (.vparam op) .null (path ++ [k]) .nonBreaking).toList)) with
      | none => none
      | some cs =>
          match cmpParamsMatched opts newM path rest with
          | none => none
          | some csr => some (cs ++ csr)

/-- `compareMethodParams`: both sides are keyed by `param.Name` (a bare
reference makes that field promotion panic: `none`), matched names recurse,
a parameter only on the new side is Added with severity Breaking exactly when
its required flag is set, a parameter only on the old side is Removed with
NonBreaking severity. -/
def compareMethodParams (opts : Options) (old new : List Param)
    (path : List String) : Option (List Change) :=
  if old.any Param.isRefP || new.any Param.isRefP then none
  else
    let oldM := toMap Param.nameKey old
    let newM := toMap Param.nameKey new
    match cmpParamsMatched opts newM path oldM with
    | none => none
    | some matched =>
        some (matched ++
          ((newM.filter (fun p => (oldM.lookup p.1).isNone)).map (fun p =>
            (compare .null (.vparam p.2) (path ++ [p.1])
              (if p.2.requiredF then .breaking else .nonBreaking)).toList)).flatten)

/-- `compareMethodResults`: deep-equality shortcut, nil cases (Added is
NonBreaking, Removed is Breaking), then the content-descriptor comparison
with a second `"result"` path segment appended, as in the source. -/
def compareMethodResults (opts : Options) (old new : Option Param)
    (path : List String) : Option (List Change) :=
  if peqOpt old new then some []
  else match old, new with
  | none, none => some []
  | none, some p => some ((compare .null (.vparam p) path .nonBreaking).toList)
  | some p, none => some ((compare (.vparam p) .null path .breaking).toList)
  | some op, some np => compareContentDescriptor opts op np (path ++ ["result"]) false

def errKey (e : ErrorObj) : String := toString e.code

/-- `compareRecursive` on a matched pair of `*ErrorObject` values: the code
fields are equal (the pair shares the identity key), so only the `message`
field (an `omitempty` string) can differ. -/
def errPairChanges (oe ne : ErrorObj) (path : List String) : List Change :=
  compareStrField oe.message ne.message (path ++ ["message"])

/-- `compareMethodErrors` reduces to `compareRecursive` on the two
`[]ErrorOrReference` slices, keyed by the error-code identifier tag. -/
def compareMethodErrors (old new : List ErrorObj) (path : List String) : List Change :=
  let oldM := toMap errKey old
  let newM := toMap errKey new
  ((oldM.map (fun p =>
      match newM.lookup p.1 with
      | some ne => errPairChanges p.2 ne (path ++ [p.1])
      | none => (compare (.verror p.2) .null (path ++ [p.1]) .nonBreaking).toList)).flatten)
  ++ ((newM.filter (fun p => (oldM.lookup p.1).isNone)).map (fun p =>
      (compare .null (.verror p.2) (path ++ [p.1]) .nonBreaking).toList)).flatten

/-- `compareParamStructure`: moving to `"either"` (or to the empty default)
is NonBreaking, moving away from it is Dangerous, any other change is
Breaking.  The final NonBreaking stands for the zero value the source leaves
when old equals new; that branch is unreachable because `compareMethod` only
calls this function on differing values. -/
def compareParamStructure (old new : String) (path : List String) : Change :=
  let criticality :=
    if new = "either" ∨ new = "" then CriticalityLevel.nonBreaking
    else if old = "either" ∨ old = "" then CriticalityLevel.dangerous
    else if old ≠ new then CriticalityLevel.breaking
    else CriticalityLevel.nonBreaking
  ⟨path, detectChangeType (.vstr old) (.vstr new), .methodParamStructure, criticality,
   .vstr old, .vstr new⟩

/-- `compareMethod`: paramStructure, params, result, errors, then the
remaining scalar fields (`paramStructure`, `params`, `result`, `errors`
excluded from the generic pass). -/
def compareMethod (opts : Options) (old new : MethodObj) (path : List String) :
    Option (List Change) :=
  let psCs :=
    if old.paramStructure != new.paramStructure then
      [compareParamStructure old.paramStructure new.paramStructure
        (path ++ ["paramStructure"])]
    else []
  match compareMethodParams opts old.params new.params (path ++ ["params"]) with
  | none => none
  | some pCs =>
      match compareMethodResults opts old.result new.result (path ++ ["result"]) with
      | none => none
      | some rCs =>
          some (psCs ++ pCs ++ rCs
            ++ compareMethodErrors old.errors new.errors (path ++ ["errors"])
            ++ compareStrField old.name new.name (path ++ ["name"])
            ++ compareStrField old.summary new.summary (path ++ ["summary"])
            ++ compareStrField old.description new.description (path ++ ["description"]))

/-- The old-side loop of `compareMethods`, iterating the old map in the order
given by `ord` (Go map iteration order is unspecified; any enumeration of the
old keys is a possible run). -/
def cmpMethodsLoop (opts : Options) (oldM newM : List (String × MethodObj)) :
    List String → Option (List Change)
  | [] => some []
  | k :: ks =>
      match (match oldM.lookup k with
             | none => some []
             | some om =>
                 match newM.lookup k with
                 | some nm => compareMethod opts om nm ["methods", k]
                 | none => some ((compare (.vmethod om) .null ["methods", k] .breaking).toList)) with
      | none => none
      | some cs =>
          match cmpMethodsLoop opts oldM newM ks with
          | none => none
          | some rest => some (cs ++ rest)

/-- `compareMethods` with the old-map iteration order exposed: methods are
keyed by name, a matched name recurses, a method only on the old side is
Removed/Breaking, a method only on the new side is Added/NonBreaking. -/
def compareMethodsOrd (opts : Options) (old new : List MethodObj)
    (ord : List String) : Option (List Change) :=
  let oldM := toMap MethodObj.name old
  let newM := toMap MethodObj.name new
  match cmpMethodsLoop opts oldM newM ord with
  | none => none
  | some matched =>
      some (matched ++
        ((newM.filter (fun p => (oldM.lookup p.1).isNone)).map (fun p =>
          (compare .null (.vmethod p.2) ["methods", p.1] .nonBreaking).toList)).flatten)

/-- `compareMethods` at the canonical enumeration (old-side insertion
order). -/
def compareMethods (opts : Options) (old new : List MethodObj) : Option (List Change) :=
  compareMethodsOrd opts old new ((toMap MethodObj.name old).map Prod.fst)

/-- `compareInfo`: skipped without the metadata option; otherwise the generic
pass over the two `*InfoObject` values (scalar fields with `omitempty`). -/
def compareInfo (opts : Options) (old new : Option InfoObj) : List Change :=
  if !opts.showMeta then []
  else match old, new with
  | none, none => []
  | none, some i => (compare .null (.vinfo i) ["info"] .nonBreaking).toList
  | some i, none => (compare (.vinfo i) .null ["info"] .nonBreaking).toList
  | some o, some n =>
      compareStrField o.title n.title ["info", "title"]
      ++ compareStrField o.version n.version ["info", "version"]
      ++ compareStrField o.description n.description ["info", "description"]

def srvPair (o n : ServerObj) (path : List String) : List Change :=
  compareStrField o.name n.name (path ++ ["name"])
  ++ compareStrField o.url n.url (path ++ ["url"])

def srvAdded (path : List String) : List ServerObj → Nat → List Change
  | [], _ => []
  | n :: ns, i =>
      (compare .null (.vserver n) (path ++ [toString i]) .nonBreaking).toList
      ++ srvAdded path ns (i + 1)

/-- `compareRecursive` on the two `[]ServerObject` slices, keyed by index. -/
def srvAux (path : List String) : List ServerObj → List ServerObj → Nat → List Change
  | [], ns, i => srvAdded path ns i
  | o :: os, [], i =>
      (compare (.vserver o) .null (path ++ [toString i]) .nonBreaking).toList
      ++ srvAux path os [] (i + 1)
  | o :: os, n :: ns, i =>
      srvPair o n (path ++ [toString i]) ++ srvAux path os ns (i + 1)

/-- `compareServers`: skipped without the metadata option. -/
def compareServers (opts : Options) (old new : List ServerObj) : List Change :=
  if !opts.showMeta then [] else srvAux ["servers"] old new 0

def schemasVal : Option (List JSONSchema) → Value
  | none => .null
  | some l => .vschemaList l

/-- The old-side loop of `compareComponentsSchemas`: a schema found in the
new map (by `Id`) is compared with `isInput` computed by
`detectRequiredInput` on the new document; a schema only on the old side is
Removed with NonBreaking severity. -/
def ccsLoop (opts : Options) (nl : List JSONSchema) (newDoc : Doc) :
    List JSONSchema → Option (List Change)
  | [] => some []
  | s :: rest =>
      match (match schemaMapGet nl s.id with
             | some ns =>
                 match detectRequiredInput ns.id newDoc [] 0 with
                 | none => none
                 | some isInput =>
                     some (compareJSONSchema opts s ns ["components", "schemas", s.id] isInput)
             | none =>
                 some [⟨["components", "schemas", s.id], .removed,
                        detectObjectType ["components", "schemas", s.id], .nonBreaking,
                        .vschema s, .null⟩]) with
      | none => none
      | some cs =>
          match ccsLoop opts nl newDoc rest with
          | none => none
          | some csr => some (cs ++ csr)

/-- `compareComponentsSchemas`: a nil-presence mismatch of the two
`*SchemaMap` pointers is one NonBreaking change; otherwise both maps (empty
when nil) are traversed, matched ids recurse, a schema only on the new side
is Added with NonBreaking severity. -/
def compareComponentsSchemas (opts : Options) (old new : Option (List JSONSchema))
    (_oldDoc newDoc : Doc) : Option (List Change) :=
  if old.isSome != new.isSome then
    some ((compare (schemasVal old) (schemasVal new) ["components", "schemas"]
      .nonBreaking).toList)
  else
    let ol := old.getD []
    let nl := new.getD []
    match ccsLoop opts nl newDoc ol with
    | none => none
    | some matched =>
        some (matched ++
          (nl.filter (fun ns => !(ol.any (fun s => s.id == ns.id)))).map (fun ns =>
            ⟨["components", "schemas", ns.id], .added,
             detectObjectType ["components", "schemas", ns.id], .nonBreaking,
             .null, .vschema ns⟩))

/-- `compareComponents`: the call site dereferences both documents' nil-able
`Components` pointers without a guard (`oldDoc.Components.Schemas`), so a
document without a components object panics: `none`. -/
def compareComponents (opts : Options) (oldDoc newDoc : Doc) : Option (List Change) :=
  match oldDoc.components, newDoc.components with
  | some oc, some nc => compareComponentsSchemas opts oc.schemas nc.schemas oldDoc newDoc
  | _, _ => none

/-- `compareDocument`: openrpc version (Breaking on change), info and servers
(metadata), methods, components. -/
def compareDocument (opts : Options) (old new : Doc) : Option (List Change) :=
  match compareMethods opts old.methods new.methods with
  | none => none
  | some mCs =>
      match compareComponents opts old new with
      | none => none
      | some cCs =>
          some ((compare (.vstr old.openrpc) (.vstr new.openrpc) ["openrpc"] .breaking).toList
            ++ compareInfo opts old.info new.info
            ++ compareServers opts old.servers new.servers
            ++ mCs ++ cCs)

/-- `NewDiffBytes` on two already-parsed documents: the change list of
`compareDocument` plus the folded overall criticality (starting from
NonBreaking). -/
def NewDiffBytes (opts : Options) (old new : Doc) : Option Diff :=
  match compareDocument opts old new with
  | none => none
  | some cs => some ⟨diffCriticalityLoop cs .nonBreaking, cs⟩

/-! ## Infrastructure lemmas -/

/-- Strong induction along a natural-number measure. -/
theorem measureInd {α : Sort _} (f : α → Nat) (motive : α → Prop)
    (step : ∀ x, (∀ y, f y < f x → motive y) → motive x) : ∀ x, motive x := by
  have h : ∀ n x, f x < n → motive x := by
    intro n
    induction n with
    | zero => intro x hx; omega
    | succ n ih => exact fun x _ => step x (fun y hy => ih y (by omega))
  exact fun x => h (f x + 1) x (by omega)

/-- `q` lies below `p` in the path tree. -/
def PathUnder (p q : List String) : Prop := ∃ r, q = p ++ r

theorem pathUnder_self (p : List String) : PathUnder p p := ⟨[], by simp⟩

theorem pathUnder_append (p r : List String) : PathUnder p (p ++ r) := ⟨r, rfl⟩

theorem pathUnder_extend {p s q : List String} (h : PathUnder (p ++ s) q) :
    PathUnder p q := by
  obtain ⟨r, hr⟩ := h
  exact ⟨s ++ r, by simp [hr]⟩

theorem compare_eq_some {a b : Value} {path : List String} {lvl : CriticalityLevel}
    {c : Change} (h : compare a b path lvl = some c) :
    c = ⟨path, detectChangeType a b, detectObjectType path, lvl, a, b⟩ := by
  unfold compare at h
  split at h
  · exact absurd h (by simp)
  · exact (Option.some.inj h).symm

theorem mem_compare_toList {a b : Value} {path : List String} {lvl : CriticalityLevel}
    {c : Change} (h : c ∈ (compare a b path lvl).toList) :
    c = ⟨path, detectChangeType a b, detectObjectType path, lvl, a, b⟩ := by
  rw [Option.mem_toList, Option.mem_def] at h
  exact compare_eq_some h

theorem compareType_path {opts : Options} {o n : Option TypeT} {path : List String}
    {c : Change} (h : compareType opts o n path = some c) : c.path = path := by
  unfold compareType at h
  split at h
  · exact absurd h (by simp)
  · split at h
    · exact absurd h (by simp)
    · rw [compare_eq_some h]
    · rw [compare_eq_some h]
    · rw [compare_eq_some h]

theorem compareRefVals_path {a b : String} {path : List String} {c : Change}
    (h : compareRefVals a b path = some c) : c.path = path := by
  unfold compareRefVals at h
  split at h
  · exact absurd h (by simp)
  · split at h
    · rw [compare_eq_some h]
    · split at h
      · rw [compare_eq_some h]
      · rw [compare_eq_some h]

theorem compareStrField_path {a b : String} {path : List String} {c : Change}
    (h : c ∈ compareStrField a b path) : c.path = path := by
  unfold compareStrField at h
  split at h
  · simp at h
  · split at h
    · rw [mem_compare_toList h]
    · split at h
      · rw [mem_compare_toList h]
      · rw [mem_compare_toList h]

theorem cslAdded_spec {path : List String} :
    ∀ {ns : List String} {i : Nat} {c : Change}, c ∈ cslAdded path ns i →
      (∃ k, c.path = path ++ [k]) ∧ c.criticality = .nonBreaking := by
  intro ns
  induction ns with
  | nil => intro i c hc; simp [cslAdded] at hc
  | cons n ns ih =>
      intro i c hc
      rw [cslAdded, List.mem_append] at hc
      rcases hc with hc | hc
      · rw [mem_compare_toList hc]
        exact ⟨⟨toString i, rfl⟩, rfl⟩
      · exact ih hc

theorem cslAux_spec {path : List String} :
    ∀ {o n : List String} {i : Nat} {c : Change}, c ∈ cslAux path o n i →
      (∃ k, c.path = path ++ [k]) ∧ c.criticality = .nonBreaking := by
  intro o
  induction o with
  | nil => intro n i c hc; exact cslAdded_spec (by simpa [cslAux] using hc)
  | cons o os ih =>
      intro n i c hc
      match n with
      | [] =>
          rw [cslAux, List.mem_append] at hc
          rcases hc with hc | hc
          · rw [mem_compare_toList hc]
            exact ⟨⟨toString i, rfl⟩, rfl⟩
          · exact ih hc
      | nh :: nt =>
          rw [cslAux, List.mem_append] at hc
          rcases hc with hc | hc
          · rw [mem_compare_toList hc]
            exact ⟨⟨toString i, rfl⟩, rfl⟩
          · exact ih hc

theorem compareStringList_spec {old new path : List String} {c : Change}
    (h : c ∈ compareStringList old new path) :
    (∃ k, c.path = path ++ [k]) ∧ c.criticality = .nonBreaking :=
  cslAux_spec (by simpa [compareStringList] using h)

theorem mem_upgradeRequired {b : Bool} {cs : List Change} {c : Change}
    (h : c ∈ upgradeRequired b cs) :
    ∃ c₀ ∈ cs,
      c = (if c₀.type = .added ∧ b then { c₀ with criticality := .breaking } else c₀) := by
  unfold upgradeRequired at h
  obtain ⟨c₀, hc₀, he⟩ := List.mem_map.mp h
  exact ⟨c₀, hc₀, he.symm⟩

theorem sizeOf_items_lt {i t r d : String} {ty : Option TypeT} {oi : JSONSchema}
    {rq : List String} {p : Option (List JSONSchema)} :
    sizeOf oi < sizeOf (JSONSchema.mk i t r d ty (some oi) rq p) := by
  simp [JSONSchema.mk.sizeOf_spec]
  omega

theorem sizeOf_prop_lt {i t r d : String} {ty : Option TypeT} {it : Option JSONSchema}
    {rq : List String} {ol : List JSONSchema} {s : JSONSchema} (hs : s ∈ ol) :
    sizeOf s < sizeOf (JSONSchema.mk i t r d ty it rq (some ol)) := by
  have h1 := List.sizeOf_lt_of_mem hs
  simp [JSONSchema.mk.sizeOf_spec]
  omega

/-- Every change emitted by the old-side property loop lies under the
properties path, provided every recursive schema comparison does. -/
theorem propsCore_under {opts : Options} {nl : List JSONSchema} {P : List String}
    {isInput : Bool} :
    ∀ {ol : List JSONSchema},
      (∀ s ∈ ol, ∀ ns pb ii c, c ∈ compareJSONSchema opts s ns pb ii → PathUnder pb c.path) →
      ∀ {c : Change}, c ∈ propsCore opts nl P isInput ol →
        PathUnder P c.path := by
  intro ol
  induction ol with
  | nil => intro _ c hc; simp [propsCore] at hc
  | cons s rest ih =>
      intro hIH c hc
      rw [propsCore.eq_def, List.mem_append] at hc
      rcases hc with hc | hc
      · rcases hq : schemaMapGet nl s.id with _ | ns
        · rw [hq] at hc
          simp only [Option.elim_none, List.mem_singleton] at hc
          subst hc
          exact pathUnder_append _ _
        · rw [hq] at hc
          simp only [Option.elim_some] at hc
          exact pathUnder_extend
            (hIH s (List.mem_cons_self _ _) _ _ _ _ hc)
      · exact ih (fun x hx => hIH x (List.mem_cons_of_mem _ hx)) hc

theorem sizeOf_of_items_some {old : JSONSchema} {oi : JSONSchema}
    (h : old.items = some oi) : sizeOf oi < sizeOf old := by
  have h1 := sizeOf_items_field_lt old
  rw [h] at h1
  simp only [Option.some.sizeOf_spec] at h1
  omega

theorem sizeOf_of_props_mem {old : JSONSchema} {ol : List JSONSchema} {s : JSONSchema}
    (h : old.properties = some ol) (hs : s ∈ ol) : sizeOf s < sizeOf old := by
  have h1 := sizeOf_props_field_lt old
  rw [h] at h1
  simp only [Option.some.sizeOf_spec] at h1
  have h2 := List.sizeOf_lt_of_mem hs
  omega

/-- Every change emitted by the items section lies under the items path. -/
theorem itemsSection_under {opts : Options} {path : List String} {isInput : Bool}
    {o n : Option JSONSchema}
    (hrec : ∀ oi, o = some oi →
      ∀ ni pb ii c, c ∈ compareJSONSchema opts oi ni pb ii → PathUnder pb c.path)
    {c : Change} (hc : c ∈ itemsSection opts path isInput o n) :
    PathUnder (path ++ ["items"]) c.path := by
  rcases o with _ | oi <;> rcases n with _ | ni
  · simp [itemsSection] at hc
  · simp only [itemsSection] at hc
    rw [mem_compare_toList hc]
    exact pathUnder_self _
  · simp only [itemsSection, List.mem_singleton] at hc
    subst hc
    exact pathUnder_self _
  · simp only [itemsSection] at hc
    exact hrec oi rfl _ _ _ _ hc

/-- Every change emitted by the properties section lies under the properties
path. -/
theorem propsSection_under {opts : Options} {path : List String} {isInput : Bool}
    {o n : Option (List JSONSchema)}
    (hrec : ∀ ol, o = some ol → ∀ s ∈ ol,
      ∀ ns pb ii c, c ∈ compareJSONSchema opts s ns pb ii → PathUnder pb c.path)
    {c : Change} (hc : c ∈ propsSection opts path isInput o n) :
    PathUnder (path ++ ["properties"]) c.path := by
  rcases o with _ | ol <;> rcases n with _ | nl
  · simp [propsSection] at hc
  · simp only [propsSection] at hc
    rw [mem_compare_toList hc]
    exact pathUnder_self _
  · simp only [propsSection] at hc
    rw [mem_compare_toList hc]
    exact pathUnder_self _
  · simp only [propsSection] at hc
    split at hc
    · simp at hc
    · rw [List.mem_append] at hc
      rcases hc with hc | hc
      · exact propsCore_under (hrec ol rfl) hc
      · obtain ⟨ns, -, he⟩ := List.mem_map.mp hc
        subst he
        exact ⟨[ns.id], by simp⟩

/-- Every change emitted by `compareJSONSchema` lies under the path passed
in. -/
theorem compareJSONSchema_under {opts : Options} :
    ∀ old : JSONSchema, ∀ {new : JSONSchema} {path : List String} {isInput : Bool}
      {c : Change}, c ∈ compareJSONSchema opts old new path isInput →
      PathUnder path c.path := by
  refine measureInd sizeOf
    (fun old => ∀ {new path isInput c},
      c ∈ compareJSONSchema opts old new path isInput → PathUnder path c.path) ?_
  intro old IH new path isInput c hc
  rw [compareJSONSchema.eq_def] at hc
  split at hc
  · simp at hc
  · split at hc
    · rw [mem_compare_toList hc]
      exact pathUnder_self path
    · rcases heq : compareRefVals old.ref new.ref (path ++ ["$ref"]) with _ | c'
      case some =>
          rw [heq] at hc
          simp only [Option.elim_some, List.mem_singleton] at hc
          subst hc
          rw [compareRefVals_path heq]
          exact pathUnder_append _ _
      case none =>
        rw [heq] at hc
        simp only [Option.elim_none, List.mem_append] at hc
        rcases hc with ((((hc | hc) | hc) | hc) | hc) | hc
        · rw [Option.mem_toList, Option.mem_def] at hc
          rw [compareType_path hc]
          exact pathUnder_append _ _
        · exact pathUnder_extend
            (itemsSection_under
              (fun oi ho ni pb ii c' hc' => IH oi (sizeOf_of_items_some ho) hc') hc)
        · obtain ⟨c₀, hc₀, he⟩ := mem_upgradeRequired hc
          obtain ⟨⟨k, hk⟩, -⟩ := compareStringList_spec hc₀
          have hcp : c.path = c₀.path := by
            rw [he]; split <;> rfl
          rw [hcp, hk, List.append_assoc]
          exact pathUnder_append _ _
        · exact pathUnder_extend
            (propsSection_under
              (fun ol ho s hs ns pb ii c' hc' => IH s (sizeOf_of_props_mem ho hs) hc') hc)
        · rw [compareStrField_path hc]
          exact pathUnder_append _ _
        · rw [compareStrField_path hc]
          exact pathUnder_append _ _

/-! ## Overall severity (claim C1) -/

/-- The overall severity as the specification words it: Breaking if any
change is Breaking, else Dangerous if any change is Dangerous, else
NonBreaking.  (This definition follows the specification, to be compared
with the loop the source runs.) -/
def specMaxSeverity (cs : List Change) : CriticalityLevel :=
  if cs.any (fun c => c.criticality = .breaking) then .breaking
  else if cs.any (fun c => c.criticality = .dangerous) then .dangerous
  else .nonBreaking

theorem diffCriticalityLoop_dangerous (cs : List Change) :
    diffCriticalityLoop cs .dangerous =
      (if cs.any (fun c => c.criticality = .breaking) then .breaking else .dangerous) := by
  induction cs with
  | nil => simp [diffCriticalityLoop]
  | cons c rest ih =>
      rcases hcc : c.criticality <;>
        simp [diffCriticalityLoop, hcc, ih]

theorem specMax_breaking_iff (cs : List Change) :
    specMaxSeverity cs = .breaking ↔ ∃ c ∈ cs, c.criticality = .breaking := by
  unfold specMaxSeverity
  by_cases hb : cs.any (fun c => c.criticality = CriticalityLevel.breaking) = true
  · rw [if_pos hb]
    simp only [List.any_eq_true, decide_eq_true_eq] at hb
    simpa using hb
  · rw [if_neg hb]
    simp only [List.any_eq_true, decide_eq_true_eq] at hb
    constructor
    · intro h
      split at h <;> simp_all
    · intro h
      exact absurd h hb

theorem specMax_dangerous_iff (cs : List Change) :
    specMaxSeverity cs = .dangerous ↔
      ((∃ c ∈ cs, c.criticality = .dangerous) ∧ ¬ ∃ c ∈ cs, c.criticality = .breaking) := by
  unfold specMaxSeverity
  by_cases hb : cs.any (fun c => c.criticality = CriticalityLevel.breaking) = true
  · rw [if_pos hb]
    simp only [List.any_eq_true, decide_eq_true_eq] at hb
    simp [hb]
  · rw [if_neg hb]
    simp only [List.any_eq_true, decide_eq_true_eq] at hb
    by_cases hdg : cs.any (fun c => c.criticality = CriticalityLevel.dangerous) = true
    · rw [if_pos hdg]
      simp only [List.any_eq_true, decide_eq_true_eq] at hdg
      simp [hdg, hb]
    · rw [if_neg hdg]
      simp only [List.any_eq_true, decide_eq_true_eq] at hdg
      simp [hdg, hb]

theorem diffCriticalityLoop_eq_specMax (cs : List Change) :
    diffCriticalityLoop cs .nonBreaking = specMaxSeverity cs := by
  induction cs with
  | nil => simp [diffCriticalityLoop, specMaxSeverity]
  | cons c rest ih =>
      rcases hcc : c.criticality
      · simp [diffCriticalityLoop, specMaxSeverity, hcc]
      · simp only [diffCriticalityLoop, hcc]
        simp only [specMaxSeverity] at ih ⊢
        simp [hcc, ih]
      · simp only [diffCriticalityLoop, hcc]
        simp [specMaxSeverity, hcc, diffCriticalityLoop_dangerous]

/-- C1: for every pair of documents on which `NewDiffBytes` completes, the
overall Diff severity is the maximum severity of the emitted changes:
Breaking iff some change is Breaking, else Dangerous iff some change is
Dangerous, and NonBreaking when the change list is empty (or contains only
NonBreaking changes). -/
theorem newDiffBytes_criticality_is_max (opts : Options) (old new : Doc) (d : Diff)
    (h : NewDiffBytes opts old new = some d) :
    (d.criticality = .breaking ↔ ∃ c ∈ d.changes, c.criticality = .breaking)
    ∧ (d.criticality = .dangerous ↔
        ((∃ c ∈ d.changes, c.criticality = .dangerous)
          ∧ ¬ ∃ c ∈ d.changes, c.criticality = .breaking))
    ∧ (d.changes = [] → d.criticality = .nonBreaking) := by
  unfold NewDiffBytes at h
  rcases hcd : compareDocument opts old new with _ | cs
  · rw [hcd] at h; exact absurd h (by simp)
  · rw [hcd] at h
    have hd : d = ⟨diffCriticalityLoop cs .nonBreaking, cs⟩ := (Option.some.inj h).symm
    subst hd
    simp only [diffCriticalityLoop_eq_specMax]
    refine ⟨specMax_breaking_iff cs, specMax_dangerous_iff cs, ?_⟩
    intro hnil
    subst hnil
    rfl

def c1OldDoc : Doc :=
  { openrpc := "1.2.6", info := none, servers := []
  , methods := [
      { name := "a", summary := "", description := "", paramStructure := ""
      , params := [], result := none, errors := [] } ]
  , components := some { schemas := none } }

def c1NewDoc : Doc :=
  { openrpc := "1.2.6", info := none, servers := [], methods := []
  , components := some { schemas := none } }

theorem upsert_keys (m : List (String × α)) (k : String) (v : α) :
    (upsert m k v).map Prod.fst =
      if m.any (fun p => p.1 = k) then m.map Prod.fst
      else m.map Prod.fst ++ [k] := by
  unfold upsert
  split
  · rw [List.map_map]
    exact List.map_congr_left (fun p _ => by by_cases h : p.1 = k <;> simp [h])
  · simp

theorem toMap_keys_nodup_aux (key : α → String) :
    ∀ (xs : List α) (m : List (String × α)), (m.map Prod.fst).Nodup →
      ((xs.foldl (fun m x => upsert m (key x) x) m).map Prod.fst).Nodup := by
  intro xs
  induction xs with
  | nil => intro m hm; exact hm
  | cons x xs ih =>
      intro m hm
      rw [List.foldl_cons]
      refine ih _ ?_
      rw [upsert_keys]
      split
      · exact hm
      · rename_i hany
        rw [List.nodup_append]
        refine ⟨hm, List.nodup_singleton _, ?_⟩
        intro a ha hb
        rw [List.mem_singleton] at hb
        subst hb
        obtain ⟨p, hp, hpk⟩ := List.mem_map.mp ha
        exact hany (List.any_eq_true.mpr ⟨p, hp, by simp [hpk]⟩)

theorem toMap_keys_nodup (key : α → String) (xs : List α) :
    ((toMap key xs).map Prod.fst).Nodup :=
  toMap_keys_nodup_aux key xs [] (by simp)

theorem toMap_keys_sub_aux (key : α → String) :
    ∀ (xs : List α) (m : List (String × α)) (a : String),
      a ∈ (xs.foldl (fun m x => upsert m (key x) x) m).map Prod.fst →
      a ∈ m.map Prod.fst ∨ a ∈ xs.map key := by
  intro xs
  induction xs with
  | nil => intro m a h; exact Or.inl h
  | cons x xs ih =>
      intro m a h
      rw [List.foldl_cons] at h
      rcases ih _ a h with h' | h'
      · rw [upsert_keys] at h'
        split at h'
        · exact Or.inl h'
        · rcases List.mem_append.mp h' with h'' | h''
          · exact Or.inl h''
          · rw [List.mem_singleton] at h''
            exact Or.inr (by simp [h''])
      · exact Or.inr (List.mem_cons_of_mem _ h')

theorem toMap_keys_sub {key : α → String} {xs : List α} {a : String}
    (h : a ∈ (toMap key xs).map Prod.fst) : a ∈ xs.map key := by
  rcases toMap_keys_sub_aux key xs [] a h with h' | h'
  · simp at h'
  · exact h'

theorem lookup_none_iff {m : List (String × α)} {k : String} :
    m.lookup k = none ↔ k ∉ m.map Prod.fst := by
  induction m with
  | nil => simp
  | cons p rest ih =>
      obtain ⟨k', v'⟩ := p
      by_cases h : k = k'
      · simp [List.lookup, h]
      · have hb : (k == k') = false := beq_eq_false_iff_ne.mpr h
        simp [List.lookup, hb, ih, h]

/-- When the key list is duplicate-free, building the Go map keeps every
element, in order. -/
theorem toMap_eq_map_aux (key : α → String) :
    ∀ (xs : List α) (m : List (String × α)),
      (∀ x ∈ xs, key x ∉ m.map Prod.fst) → (xs.map key).Nodup →
      xs.foldl (fun m x => upsert m (key x) x) m =
        m ++ xs.map (fun x => (key x, x)) := by
  intro xs
  induction xs with
  | nil => intro m _ _; simp
  | cons x xs ih =>
      intro m hfresh hnd
      rw [List.map_cons, List.nodup_cons] at hnd
      rw [List.foldl_cons]
      have hup : upsert m (key x) x = m ++ [(key x, x)] := by
        unfold upsert
        rw [if_neg]
        intro hany
        obtain ⟨p, hp, hpk⟩ := List.any_eq_true.mp hany
        exact hfresh x (List.mem_cons_self x xs)
          (List.mem_map.mpr ⟨p, hp, by simpa using hpk⟩)
      rw [hup, ih _ ?_ hnd.2, List.append_assoc, List.singleton_append,
        List.map_cons]
      intro y hy
      rw [List.map_append, List.mem_append]
      rintro (h | h)
      · exact hfresh y (List.mem_cons_of_mem _ hy) h
      · simp only [List.map_singleton, List.mem_singleton] at h
        exact hnd.1 (h ▸ List.mem_map.mpr ⟨y, hy, rfl⟩)

theorem toMap_eq_map {key : α → String} {xs : List α}
    (hnd : (xs.map key).Nodup) :
    toMap key xs = xs.map (fun x => (key x, x)) := by
  unfold toMap
  rw [toMap_eq_map_aux key xs [] (by simp) hnd, List.nil_append]

/-- The Added section of a `compareRecursive`-style pass: filtering the
flattened per-key singletons at the path of key `k` leaves exactly the Added
change of the value stored at `k`, provided the keys are duplicate-free. -/
theorem filter_added_section (emb : α → Value) (lvl : α → CriticalityLevel)
    {path : List String} {k : String} {x : α}
    (hne : ∀ y : α, veq .null (emb y) = false) :
    ∀ (l : List (String × α)) (cond : String × α → Bool),
      (l.map Prod.fst).Nodup → (k, x) ∈ l → cond (k, x) = true →
      ((((l.filter cond).map (fun q =>
          (compare .null (emb q.2) (path ++ [q.1]) (lvl q.2)).toList)).flatten).filter
        (fun c => c.path == path ++ [k])) =
      [⟨path ++ [k], detectChangeType .null (emb x), detectObjectType (path ++ [k]),
        lvl x, .null, emb x⟩] := by
  intro l
  induction l with
  | nil => intro cond _ h; cases h
  | cons q rest ih =>
      intro cond hnd hmem hcond
      obtain ⟨k', x'⟩ := q
      rw [List.map_cons, List.nodup_cons] at hnd
      rcases List.mem_cons.mp hmem with he | he
      · obtain ⟨hk, hx⟩ := Prod.mk.injEq .. ▸ he
        subst hk hx
        rw [List.filter_cons, if_pos hcond, List.map_cons, List.flatten_cons,
          List.filter_append]
        have hcmp : compare .null (emb x) (path ++ [k]) (lvl x) =
            some ⟨path ++ [k], detectChangeType .null (emb x),
              detectObjectType (path ++ [k]), lvl x, .null, emb x⟩ := by
          unfold compare
          rw [if_neg (by rw [hne x]; exact Bool.false_ne_true)]
        rw [hcmp, Option.toList_some, List.filter_cons,
          if_pos (by simp), List.filter_nil]
        have htail : (((rest.filter cond).map (fun q =>
            (compare .null (emb q.2) (path ++ [q.1]) (lvl q.2)).toList)).flatten).filter
            (fun c => c.path == path ++ [k]) = [] := by
          rw [List.filter_eq_nil_iff]
          intro c hc
          obtain ⟨cs, hcs, hccs⟩ := List.mem_flatten.mp hc
          obtain ⟨q', hq', rfl⟩ := List.mem_map.mp hcs
          have hne' : q'.1 ≠ k := by
            intro hkq
            exact hnd.1 (hkq ▸
              List.mem_map.mpr ⟨q', List.mem_of_mem_filter hq', rfl⟩)
          rw [mem_compare_toList hccs]
          simp [hne']
        rw [htail]
        rfl
      · have hk' : k' ≠ k := by
          intro hkk
          exact hnd.1 (hkk ▸ List.mem_map.mpr ⟨(k, x), he, rfl⟩)
        rw [List.filter_cons]
        split
        · rw [List.map_cons, List.flatten_cons, List.filter_append,
            ih cond hnd.2 he hcond]
          have hhead : ((compare .null (emb x')
              (path ++ [k']) (lvl x')).toList).filter
              (fun c => c.path == path ++ [k]) = [] := by
            rw [List.filter_eq_nil_iff]
            intro c hc
            rw [mem_compare_toList hc]
            simp [hk']
          rw [hhead, List.nil_append]
        · exact ih cond hnd.2 he hcond

/-- C6: when a parameter's declared type is present on both sides and
differs, the emitted type change is Breaking except for the sanctioned
integer (or int) to number (or float) widening, which is NonBreaking; in
particular integer-to-number is NonBreaking and integer-to-string is
Breaking. -/
theorem compareType_severity :
    (∀ (opts : Options) (o n : TypeT) (path : List String),
      o.simpleType ≠ n.simpleType →
      compareType opts (some o) (some n) path =
        some ⟨path, .changed, detectObjectType path,
          (if (o.simpleType = "integer" ∨ o.simpleType = "int")
              ∧ (n.simpleType = "number" ∨ n.simpleType = "float")
           then .nonBreaking else .breaking),
          .vstr o.simpleType, .vstr n.simpleType⟩)
    ∧ (compareType ⟨false⟩ (some ⟨"integer"⟩) (some ⟨"number"⟩)
        ["methods", "m", "params", "p", "schema", "type"]).map Change.criticality
        = some .nonBreaking
    ∧ (compareType ⟨false⟩ (some ⟨"integer"⟩) (some ⟨"string"⟩)
        ["methods", "m", "params", "p", "schema", "type"]).map Change.criticality
        = some .breaking := by
  refine ⟨?_, rfl, rfl⟩
  intro opts o n path hne
  obtain ⟨os⟩ := o
  obtain ⟨ns⟩ := n
  simp only at hne
  simp [compareType, compare, veq, detectChangeType, Value.isNull, hne]

/-- Witness for C6 at a concrete type pair. -/
theorem compareType_severity_witness :
    compareType ⟨false⟩ (some ⟨"integer"⟩) (some ⟨"string"⟩) ["p"] =
      some ⟨["p"], .changed, detectObjectType ["p"],
        (if (("integer":String) = "integer" ∨ ("integer":String) = "int")
            ∧ (("string":String) = "number" ∨ ("string":String) = "float")
         then .nonBreaking else .breaking),
        .vstr "integer", .vstr "string"⟩ :=
  compareType_severity.1 ⟨false⟩ ⟨"integer"⟩ ⟨"string"⟩ ["p"] (by decide)

/-- C7: for a parameter (an inline content descriptor carrying a schema on
both sides) whose required flag differs, the emitted required-flag change is
Breaking when the flag turns true and NonBreaking when it turns false. -/
theorem compareContentDescriptor_required_flag (opts : Options) (o n : CDObj)
    (so sn : JSONSchema) (path : List String) (isInput : Bool)
    (hso : o.schema = some so) (hsn : n.schema = some sn)
    (hne : o.required ≠ n.required) :
    ∃ l, compareContentDescriptor opts (.cd o) (.cd n) path isInput = some l ∧
      (⟨path ++ ["required"], .changed, detectObjectType (path ++ ["required"]),
        (if n.required then .breaking else .nonBreaking),
        .vbool o.required, .vbool n.required⟩ : Change) ∈ l := by
  simp only [compareContentDescriptor, hso, hsn]
  refine ⟨_, rfl, List.mem_append_left _ (List.mem_append_left _
    (List.mem_append_left _ ?_))⟩
  have hbne : (o.required != n.required) = true := by
    cases h1 : o.required <;> cases h2 : n.required <;> simp_all
  rw [if_pos hbne]
  simp [compare, veq, detectChangeType, Value.isNull, hne]

def c7schema : JSONSchema := .mk "" "" "" "" none none [] none

/-- Witness for C7 at a concrete parameter pair (false to true). -/
theorem compareContentDescriptor_required_flag_witness :
    ∃ l, compareContentDescriptor ⟨false⟩
        (.cd ⟨"p", false, some c7schema, "", ""⟩)
        (.cd ⟨"p", true, some c7schema, "", ""⟩)
        ["methods", "m", "params", "p"] true = some l ∧
      (⟨["methods", "m", "params", "p", "required"], .changed,
        detectObjectType ["methods", "m", "params", "p", "required"],
        .breaking, .vbool false, .vbool true⟩ : Change) ∈ l :=
  compareContentDescriptor_required_flag ⟨false⟩ _ _ c7schema c7schema _ true
    rfl rfl (by decide)

/-- C10 (code bug): the engine does not survive a content descriptor without
a schema.  `compareContentDescriptor` dereferences `*old.Schema` and
`*new.Schema` without a guard, so two inline parameters that both lack a
schema make the run panic (modelled `none`) instead of degrading to a Change
record, and the panic propagates through `compareMethodParams`. -/
theorem compareContentDescriptor_missing_schema_panics :
    compareContentDescriptor ⟨false⟩ (.cd ⟨"p", false, none, "", ""⟩)
        (.cd ⟨"p", true, none, "", ""⟩) ["methods", "m", "params", "p"] true = none
    ∧ compareMethodParams ⟨false⟩
        [.cd ⟨"p", false, none, "", ""⟩] [.cd ⟨"p", true, none, "", ""⟩]
        ["methods", "m", "params"] = none := ⟨rfl, rfl⟩

def c4doc : Doc :=
  { openrpc := "1.2.6", info := none, servers := [], methods := []
  , components := none }

def c4refDoc : Doc :=
  { openrpc := "1.2.6", info := none, servers := []
  , methods := [
      { name := "m", summary := "", description := "", paramStructure := ""
      , params := [.ref "#/components/contentDescriptors/X"]
      , result := none, errors := [] } ]
  , components := some { schemas := none } }

/-- C4 (code bug): diffing a document against itself does not always yield
an empty change list.  A document without a components object panics in
`compareComponents` (`oldDoc.Components.Schemas` dereferences the nil
pointer), and a document whose method has a bare-reference parameter panics
in `compareMethodParams` (`param.Name` promotes through the nil
`ContentDescriptorObject`); both self-comparisons abort (modelled `none`)
instead of returning `some []`. -/
theorem compareDocument_self_diff_panics :
    compareDocument ⟨false⟩ c4doc c4doc = none
    ∧ compareDocument ⟨false⟩ c4refDoc c4refDoc = none := ⟨rfl, rfl⟩

def c9a : MethodObj :=
  { name := "a", summary := "", description := "", paramStructure := ""
  , params := [], result := none, errors := [] }

def c9b : MethodObj :=
  { name := "b", summary := "", description := "", paramStructure := ""
  , params := [], result := none, errors := [] }

/-- C9 (code bug): the change sequence depends on the iteration order of the
name-keyed method map, which Go leaves unspecified between runs.  The two
orders `["a", "b"]` and `["b", "a"]` are both enumerations of the same map,
yet they produce change sequences that differ (only) in order. -/
theorem compareMethodsOrd_order_dependent :
    compareMethodsOrd ⟨false⟩ [c9a, c9b] [] ["a", "b"] ≠
      compareMethodsOrd ⟨false⟩ [c9a, c9b] [] ["b", "a"]
    ∧ List.Perm ["a", "b"] ((toMap MethodObj.name [c9a, c9b]).map Prod.fst)
    ∧ List.Perm ["b", "a"] ((toMap MethodObj.name [c9a, c9b]).map Prod.fst)
    ∧ List.Perm
        (((compareMethodsOrd ⟨false⟩ [c9a, c9b] [] ["a", "b"]).getD []).map Change.path)
        (((compareMethodsOrd ⟨false⟩ [c9a, c9b] [] ["b", "a"]).getD []).map Change.path) := by
  refine ⟨?_, by decide, by decide, by decide⟩
  intro h
  have h2 := congrArg (fun o => (o.getD []).map Change.path) h
  exact absurd h2 (by decide)

/-- C5 counterexample: an error present only in the new error list yields an
Added change whose severity is NonBreaking, not Dangerous —
`compareMethodErrors` hands the error lists to the generic `compareRecursive`
pass, which tags every change it constructs NonBreaking. -/
theorem compareMethodErrors_added_not_dangerous :
    compareMethodErrors [⟨404, "not found"⟩]
        [⟨404, "not found"⟩, ⟨502, "internal error"⟩]
        ["methods", "check.ErrorAdded", "errors"] =
      [⟨["methods", "check.ErrorAdded", "errors", "502"], .added, .methodError,
        .nonBreaking, .null, .verror ⟨502, "internal error"⟩⟩]
    ∧ CriticalityLevel.nonBreaking ≠ .dangerous := ⟨rfl, by decide⟩

/-- C2 counterexample: the required-section loop of `compareJSONSchema`
(lines 718-727 of the source) rewrites the severity of a Change after it was
constructed.  The Added required-entry change is created by
`compareStringList` with severity NonBreaking, yet the same change surfaces
from `compareJSONSchema` with severity Breaking. -/
theorem compareJSONSchema_required_mutated :
    compareJSONSchema ⟨false⟩ (.mk "S" "" "" "" none none [] none)
        (.mk "S" "" "" "" none none ["a"] none)
        ["components", "schemas", "S"] true =
      [⟨["components", "schemas", "S", "required", "0"], .added, .componentsSchema,
        .breaking, .null, .vstr "a"⟩]
    ∧ compareStringList [] ["a"] (["components", "schemas", "S"] ++ ["required"]) =
      [⟨["components", "schemas", "S", "required", "0"], .added, .componentsSchema,
        .nonBreaking, .null, .vstr "a"⟩]
    ∧ CriticalityLevel.breaking ≠ .nonBreaking := by
  refine ⟨?_, rfl, by decide⟩
  rw [compareJSONSchema.eq_def]
  simp only [jeq, itemsSection, propsSection, JSONSchema.ref, JSONSchema.id,
    JSONSchema.type, JSONSchema.items, JSONSchema.required, JSONSchema.properties,
    JSONSchema.title, JSONSchema.description]
  rfl

/-- C2 amended: every Change except a required-list entry keeps its creation
severity; a required-list Change is created NonBreaking by the generic
string-list comparison, and the post-processing pass `upgradeRequired`
rewrites an Added entry to Breaking in place when the schema is a required
input, leaving every other entry at its creation severity. -/
theorem upgradeRequired_severity (isInput : Bool) (ol nl path : List String)
    (c : Change) (hc : c ∈ upgradeRequired isInput (compareStringList ol nl path)) :
    ∃ c₀ ∈ compareStringList ol nl path,
      c₀.criticality = .nonBreaking ∧
      c = (if c₀.type = .added ∧ isInput then { c₀ with criticality := .breaking }
           else c₀) := by
  obtain ⟨c₀, hmem, heq⟩ := mem_upgradeRequired hc
  exact ⟨c₀, hmem, (compareStringList_spec hmem).2, heq⟩

/-- Witness for the amended C2 at a concrete required-list diff. -/
theorem upgradeRequired_severity_witness :
    ∃ c₀ ∈ compareStringList [] ["a"] ["p", "required"],
      c₀.criticality = .nonBreaking ∧
      (⟨["p", "required", "0"], .added, .other, .breaking, .null, .vstr "a"⟩ : Change)
        = (if c₀.type = .added ∧ (true : Bool) then { c₀ with criticality := .breaking }
           else c₀) :=
  upgradeRequired_severity true [] ["a"] ["p", "required"]
    ⟨["p", "required", "0"], .added, .other, .breaking, .null, .vstr "a"⟩
    (List.Mem.head _)

/-- The old-side section of `compareMethodErrors` never emits a change at
the bare path of a key absent from the old error list: matched pairs emit
under `path ++ [key, "message"]` and removals emit at keys of the old map. -/
theorem errOldSection_filter {old new : List ErrorObj} {path : List String}
    {k : String} (hold : ∀ e' ∈ old, errKey e' ≠ k) :
    (((toMap errKey old).map (fun p =>
        match (toMap errKey new).lookup p.1 with
        | some ne => errPairChanges p.2 ne (path ++ [p.1])
        | none =>
            (compare (.verror p.2) .null (path ++ [p.1]) .nonBreaking).toList)).flatten).filter
      (fun c => c.path == path ++ [k]) = [] := by
  rw [List.filter_eq_nil_iff]
  intro c hc
  obtain ⟨l, hl, hcl⟩ := List.mem_flatten.mp hc
  obtain ⟨p, hp, rfl⟩ := List.mem_map.mp hl
  have hkey : p.1 ≠ k := by
    intro hpk
    have h1 : p.1 ∈ (toMap errKey old).map Prod.fst :=
      List.mem_map.mpr ⟨p, hp, rfl⟩
    obtain ⟨e', he', hke⟩ := List.mem_map.mp (toMap_keys_sub h1)
    exact hold e' he' (hke.trans hpk)
  cases hlk : (toMap errKey new).lookup p.1 with
  | some ne =>
      rw [hlk] at hcl
      have hpath : c.path = (path ++ [p.1]) ++ ["message"] :=
        compareStrField_path hcl
      simp only [beq_iff_eq, hpath, List.append_assoc]
      intro habs
      have := List.append_cancel_left habs
      simp at this
  | none =>
      rw [hlk] at hcl
      rw [mem_compare_toList hcl]
      simp [hkey]

/-- C5 amended: for a method present in both documents, with duplicate-free
error codes on each side, an error entry present only in the new list yields
exactly one Change (at its code's path), of kind Added with severity
NonBreaking — not Dangerous — and an error entry present only in the old
list yields a Removed Change with severity NonBreaking. -/
theorem compareMethodErrors_severity (old new : List ErrorObj)
    (path : List String) (e : ErrorObj)
    (hndo : (old.map errKey).Nodup) (hndn : (new.map errKey).Nodup)
    (hnew : e ∈ new) (hold : ∀ e' ∈ old, errKey e' ≠ errKey e) :
    (compareMethodErrors old new path).filter
        (fun c => c.path == path ++ [errKey e]) =
      [⟨path ++ [errKey e], .added, detectObjectType (path ++ [errKey e]),
        .nonBreaking, .null, .verror e⟩]
    ∧ ∀ e' ∈ old, (∀ e₂ ∈ new, errKey e₂ ≠ errKey e') →
        (⟨path ++ [errKey e'], .removed, detectObjectType (path ++ [errKey e']),
          .nonBreaking, .verror e', .null⟩ : Change) ∈
          compareMethodErrors old new path := by
  constructor
  · simp only [compareMethodErrors]
    rw [List.filter_append, errOldSection_filter hold, List.nil_append,
      toMap_eq_map hndn]
    have hmem : (errKey e, e) ∈ new.map (fun e => (errKey e, e)) :=
      List.mem_map.mpr ⟨e, hnew, rfl⟩
    have hcond : ((toMap errKey old).lookup (errKey e)).isNone = true := by
      have hn : (toMap errKey old).lookup (errKey e) = none := by
        rw [lookup_none_iff]
        intro habs
        obtain ⟨e', he', hke⟩ := List.mem_map.mp (toMap_keys_sub habs)
        exact hold e' he' hke
      rw [hn]
      rfl
    have hkeys : ((new.map (fun e => (errKey e, e))).map Prod.fst).Nodup := by
      rw [List.map_map]
      exact hndn
    exact filter_added_section Value.verror (fun _ => CriticalityLevel.nonBreaking)
      (fun _ => rfl) _ _ hkeys hmem hcond
  · intro e' he' hnone
    simp only [compareMethodErrors]
    apply List.mem_append_left
    rw [List.mem_flatten]
    have hmemo : (errKey e', e') ∈ toMap errKey old := by
      rw [toMap_eq_map hndo]
      exact List.mem_map.mpr ⟨e', he', rfl⟩
    refine ⟨_, List.mem_map.mpr ⟨(errKey e', e'), hmemo, rfl⟩, ?_⟩
    have hlk : (toMap errKey new).lookup (errKey e') = none := by
      rw [lookup_none_iff]
      intro habs
      obtain ⟨e₂, he₂, hke⟩ := List.mem_map.mp (toMap_keys_sub habs)
      exact hnone e₂ he₂ hke
    rw [hlk]
    simp [compare, veq, detectChangeType, Value.isNull]

/-- Witness for the amended C5 on the repository's own fixture errors. -/
theorem compareMethodErrors_severity_witness :
    (compareMethodErrors [⟨404, "not found"⟩]
        [⟨404, "not found"⟩, ⟨502, "internal error"⟩]
        ["methods", "check.ErrorAdded", "errors"]).filter
      (fun c => c.path ==
        ["methods", "check.ErrorAdded", "errors"] ++ [errKey ⟨502, "internal error"⟩]) =
      [⟨["methods", "check.ErrorAdded", "errors"] ++ [errKey ⟨502, "internal error"⟩],
        .added, detectObjectType
          (["methods", "check.ErrorAdded", "errors"] ++ [errKey ⟨502, "internal error"⟩]),
        .nonBreaking, .null, .verror ⟨502, "internal error"⟩⟩]
    ∧ ∀ e' ∈ [(⟨404, "not found"⟩ : ErrorObj)],
        (∀ e₂ ∈ [(⟨404, "not found"⟩ : ErrorObj), ⟨502, "internal error"⟩],
          errKey e₂ ≠ errKey e') →
        (⟨["methods", "check.ErrorAdded", "errors"] ++ [errKey e'], .removed,
          detectObjectType (["methods", "check.ErrorAdded", "errors"] ++ [errKey e']),
          .nonBreaking, .verror e', .null⟩ : Change) ∈
          compareMethodErrors [⟨404, "not found"⟩]
            [⟨404, "not found"⟩, ⟨502, "internal error"⟩]
            ["methods", "check.ErrorAdded", "errors"] :=
  compareMethodErrors_severity [⟨404, "not found"⟩]
    [⟨404, "not found"⟩, ⟨502, "internal error"⟩]
    ["methods", "check.ErrorAdded", "errors"] ⟨502, "internal error"⟩
    (by decide) (by decide) (by decide) (by decide)

/-- Every change produced by `compareContentDescriptor` sits at or below the
descriptor's own path. -/
theorem compareCD_under {opts : Options} {op np : Param} {path : List String}
    {isInput : Bool} {l : List Change}
    (h : compareContentDescriptor opts op np path isInput = some l) :
    ∀ c ∈ l, PathUnder path c.path := by
  intro c hc
  cases op with
  | cd o =>
      cases np with
      | ref r =>
          simp only [compareContentDescriptor] at h
          obtain rfl := Option.some.inj h
          rw [mem_compare_toList hc]
          exact pathUnder_self path
      | cd n =>
          simp only [compareContentDescriptor] at h
          cases hos : o.schema with
          | none =>
              cases hns : n.schema <;> simp only [hos, hns] at h <;> simp at h
          | some so =>
              cases hns : n.schema with
              | none => simp only [hos, hns] at h; simp at h
              | some sn =>
                  simp only [hos, hns] at h
                  obtain rfl := Option.some.inj h
                  rcases List.mem_append.mp hc with hc1 | hc4
                  · rcases List.mem_append.mp hc1 with hc2 | hc3
                    · rcases List.mem_append.mp hc2 with hcr | hcj
                      · split at hcr
                        · rw [mem_compare_toList hcr]
                          exact pathUnder_append path ["required"]
                        · simp at hcr
                      · exact pathUnder_extend (compareJSONSchema_under so hcj)
                    · split at hc3
                      · rw [mem_compare_toList hc3]
                        exact pathUnder_append path ["summary"]
                      · simp at hc3
                  · split at hc4
                    · rw [mem_compare_toList hc4]
                      exact pathUnder_append path ["description"]
                    · simp at hc4
  | ref a =>
      cases np with
      | cd n =>
          simp only [compareContentDescriptor] at h
          obtain rfl := Option.some.inj h
          rw [mem_compare_toList hc]
          exact pathUnder_self path
      | ref b =>
          simp only [compareContentDescriptor] at h
          cases hrv : compareRefVals a b (path ++ ["$ref"]) with
          | none => simp only [hrv] at h; simp at h
          | some c' =>
              simp only [hrv] at h
              obtain rfl := Option.some.inj h
              rw [List.mem_singleton] at hc
              subst hc
              rw [compareRefVals_path hrv]
              exact pathUnder_append path ["$ref"]

/-- Every change of the matched/removed pass of `compareMethodParams` sits at
or below the path of some old-side parameter name. -/
theorem cmpParamsMatched_under {opts : Options} {newM : List (String × Param)}
    {path : List String} :
    ∀ {om : List (String × Param)} {cs : List Change},
      cmpParamsMatched opts newM path om = some cs →
      ∀ c ∈ cs, ∃ k, k ∈ om.map Prod.fst ∧ PathUnder (path ++ [k]) c.path := by
  intro om
  induction om with
  | nil =>
      intro cs h c hc
      simp only [cmpParamsMatched] at h
      obtain rfl := Option.some.inj h
      cases hc
  | cons q rest ih =>
      intro cs h c hc
      obtain ⟨k, op⟩ := q
      simp only [cmpParamsMatched] at h
      cases hlk : newM.lookup k with
      | some np =>
          simp only [hlk] at h
          cases hccd : compareContentDescriptor opts op np (path ++ [k]) true with
          | none => simp only [hccd] at h; simp at h
          | some cs₀ =>
              simp only [hccd] at h
              cases hrest : cmpParamsMatched opts newM path rest with
              | none => simp only [hrest] at h; simp at h
              | some csr =>
                  simp only [hrest] at h
                  obtain rfl := Option.some.inj h
                  rcases List.mem_append.mp hc with hc1 | hc2
                  · exact ⟨k, by simp, compareCD_under hccd c hc1⟩
                  · obtain ⟨k', hk', hu⟩ := ih hrest c hc2
                    exact ⟨k', by simp [hk'], hu⟩
      | none =>
          simp only [hlk] at h
          cases hrest : cmpParamsMatched opts newM path rest with
          | none => simp only [hrest] at h; simp at h
          | some csr =>
              simp only [hrest] at h
              obtain rfl := Option.some.inj h
              rcases List.mem_append.mp hc with hc1 | hc2
              · rw [mem_compare_toList hc1]
                exact ⟨k, by simp, pathUnder_self _⟩
              · obtain ⟨k', hk', hu⟩ := ih hrest c hc2
                exact ⟨k', by simp [hk'], hu⟩

/-- An old-side parameter whose name has no match in the new map yields its
Removed/NonBreaking change in the matched pass. -/
theorem cmpParamsMatched_removed {opts : Options} {newM : List (String × Param)}
    {path : List String} :
    ∀ {om : List (String × Param)} {cs : List Change},
      cmpParamsMatched opts newM path om = some cs →
      ∀ (k : String) (op : Param), (k, op) ∈ om → newM.lookup k = none →
        (⟨path ++ [k], .removed, detectObjectType (path ++ [k]),
          .nonBreaking, .vparam op, .null⟩ : Change) ∈ cs := by
  intro om
  induction om with
  | nil => intro cs h k op hmem; cases hmem
  | cons q rest ih =>
      intro cs h k op hmem hlk
      obtain ⟨k', op'⟩ := q
      simp only [cmpParamsMatched] at h
      rcases List.mem_cons.mp hmem with he | he
      · obtain ⟨hk, hop⟩ := Prod.mk.injEq .. ▸ he
        subst hk hop
        simp only [hlk] at h
        cases hrest : cmpParamsMatched opts newM path rest with
        | none => simp only [hrest] at h; simp at h
        | some csr =>
            simp only [hrest] at h
            obtain rfl := Option.some.inj h
            apply List.mem_append_left
            exact List.Mem.head _
      · cases hlk' : newM.lookup k' with
        | some np =>
            simp only [hlk'] at h
            cases hccd : compareContentDescriptor opts op' np (path ++ [k']) true with
            | none => simp only [hccd] at h; simp at h
            | some cs₀ =>
                simp only [hccd] at h
                cases hrest : cmpParamsMatched opts newM path rest with
                | none => simp only [hrest] at h; simp at h
                | some csr =>
                    simp only [hrest] at h
                    obtain rfl := Option.some.inj h
                    exact List.mem_append_right _ (ih hrest k op he hlk)
        | none =>
            simp only [hlk'] at h
            cases hrest : cmpParamsMatched opts newM path rest with
            | none => simp only [hrest] at h; simp at h
            | some csr =>
                simp only [hrest] at h
                obtain rfl := Option.some.inj h
                exact List.mem_append_right _ (ih hrest k op he hlk)

/-- C8: for a method present in both documents (with duplicate-free inline
parameter names), a parameter present only in the new document yields exactly
one Change at its name's path, of kind Added, Breaking exactly when its
required flag is set; and a parameter present only in the old document yields
a Removed Change with severity NonBreaking. -/
theorem compareMethodParams_added_removed (opts : Options) (old new : List Param)
    (path : List String) (p : CDObj) (l : List Change)
    (h : compareMethodParams opts old new path = some l)
    (hndn : (new.map Param.nameKey).Nodup)
    (hnew : Param.cd p ∈ new)
    (hold : ∀ q ∈ old, Param.nameKey q ≠ p.name) :
    l.filter (fun c => c.path == path ++ [p.name]) =
      [⟨path ++ [p.name], .added, detectObjectType (path ++ [p.name]),
        (if p.required then .breaking else .nonBreaking), .null, .vparam (.cd p)⟩]
    ∧ ((old.map Param.nameKey).Nodup →
        ∀ q ∈ old, (∀ q₂ ∈ new, Param.nameKey q₂ ≠ Param.nameKey q) →
        (⟨path ++ [Param.nameKey q], .removed,
          detectObjectType (path ++ [Param.nameKey q]), .nonBreaking,
          .vparam q, .null⟩ : Change) ∈ l) := by
  simp only [compareMethodParams] at h
  split at h
  · simp at h
  cases hm : cmpParamsMatched opts (toMap Param.nameKey new) path
      (toMap Param.nameKey old) with
  | none => simp only [hm] at h; simp at h
  | some matched =>
      simp only [hm] at h
      obtain rfl := Option.some.inj h
      constructor
      · rw [List.filter_append]
        have hmf : matched.filter (fun c => c.path == path ++ [p.name]) = [] := by
          rw [List.filter_eq_nil_iff]
          intro c hc
          obtain ⟨k, hk, r, hr⟩ := cmpParamsMatched_under hm c hc
          simp only [beq_iff_eq, hr, List.append_assoc]
          intro habs
          have h2 := List.append_cancel_left habs
          simp only [List.singleton_append, List.cons.injEq] at h2
          obtain ⟨e', he', hke⟩ := List.mem_map.mp (toMap_keys_sub hk)
          exact hold e' he' (hke.trans h2.1)
        rw [hmf, List.nil_append, toMap_eq_map hndn]
        have hmem : (Param.nameKey (.cd p), Param.cd p) ∈
            new.map (fun q => (Param.nameKey q, q)) :=
          List.mem_map.mpr ⟨.cd p, hnew, rfl⟩
        have hcond : ((toMap Param.nameKey old).lookup p.name).isNone = true := by
          have hn : (toMap Param.nameKey old).lookup p.name = none := by
            rw [lookup_none_iff]
            intro habs
            obtain ⟨q, hq, hkq⟩ := List.mem_map.mp (toMap_keys_sub habs)
            exact hold q hq hkq
          rw [hn]
          rfl
        have hkeys : ((new.map (fun q => (Param.nameKey q, q))).map Prod.fst).Nodup := by
          rw [List.map_map]
          exact hndn
        exact filter_added_section Value.vparam
          (fun q => if q.requiredF then .breaking else .nonBreaking)
          (fun _ => rfl) _ _ hkeys hmem hcond
      · intro hndo q hq hnone
        apply List.mem_append_left
        have hmemo : (Param.nameKey q, q) ∈ toMap Param.nameKey old := by
          rw [toMap_eq_map hndo]
          exact List.mem_map.mpr ⟨q, hq, rfl⟩
        have hlk : (toMap Param.nameKey new).lookup (Param.nameKey q) = none := by
          rw [lookup_none_iff]
          intro habs
          obtain ⟨q₂, hq₂, hkq⟩ := List.mem_map.mp (toMap_keys_sub habs)
          exact hnone q₂ hq₂ hkq
        exact cmpParamsMatched_removed hm (Param.nameKey q) q hmemo hlk

/-- Witness for C8: one parameter removed, one required parameter added. -/
theorem compareMethodParams_added_removed_witness :
    (((compareMethodParams ⟨false⟩ [.cd ⟨"oldonly", false, some c7schema, "", ""⟩]
        [.cd ⟨"param2", true, some c7schema, "", ""⟩]
        ["methods", "m", "params"]).getD []).filter
      (fun c => c.path == ["methods", "m", "params"] ++ ["param2"]) =
      [⟨["methods", "m", "params"] ++ ["param2"], .added,
        detectObjectType (["methods", "m", "params"] ++ ["param2"]),
        .breaking, .null, .vparam (.cd ⟨"param2", true, some c7schema, "", ""⟩)⟩])
    ∧ (([Param.cd ⟨"oldonly", false, some c7schema, "", ""⟩].map Param.nameKey).Nodup →
        ∀ q ∈ [Param.cd ⟨"oldonly", false, some c7schema, "", ""⟩],
          (∀ q₂ ∈ [Param.cd ⟨"param2", true, some c7schema, "", ""⟩],
            Param.nameKey q₂ ≠ Param.nameKey q) →
          (⟨["methods", "m", "params"] ++ [Param.nameKey q], .removed,
            detectObjectType (["methods", "m", "params"] ++ [Param.nameKey q]),
            .nonBreaking, .vparam q, .null⟩ : Change) ∈
            ((compareMethodParams ⟨false⟩ [.cd ⟨"oldonly", false, some c7schema, "", ""⟩]
              [.cd ⟨"param2", true, some c7schema, "", ""⟩]
              ["methods", "m", "params"]).getD [])) :=
  compareMethodParams_added_removed ⟨false⟩
    [.cd ⟨"oldonly", false, some c7schema, "", ""⟩]
    [.cd ⟨"param2", true, some c7schema, "", ""⟩]
    ["methods", "m", "params"] ⟨"param2", true, some c7schema, "", ""⟩ _ rfl
    (by decide) (List.Mem.head _) (by decide)

/-- Inside `compareJSONSchema`, a change surfacing at `path ++ ["required",
k]` can only come from the required section: the string-list comparison
post-processed by the Added-and-input upgrade. -/
theorem compareJSONSchema_required {opts : Options} {o n : JSONSchema}
    {path : List String} {isInput : Bool} {c : Change} {k : String}
    (hc : c ∈ compareJSONSchema opts o n path isInput)
    (hp : c.path = path ++ ["required", k]) :
    ∃ c₀ ∈ compareStringList o.required n.required (path ++ ["required"]),
      c = (if c₀.type = .added ∧ isInput then { c₀ with criticality := .breaking }
           else c₀) := by
  rw [compareJSONSchema.eq_def] at hc
  split at hc
  · simp at hc
  · split at hc
    · rw [mem_compare_toList hc] at hp
      simp at hp
    · rcases heq : compareRefVals o.ref n.ref (path ++ ["$ref"]) with _ | c'
      case some =>
          rw [heq] at hc
          simp only [Option.elim_some, List.mem_singleton] at hc
          subst hc
          rw [compareRefVals_path heq] at hp
          have h2 := List.append_cancel_left hp
          simp at h2
      case none =>
        rw [heq] at hc
        simp only [Option.elim_none, List.mem_append] at hc
        rcases hc with ((((hc | hc) | hc) | hc) | hc) | hc
        · rw [Option.mem_toList, Option.mem_def] at hc
          rw [compareType_path hc] at hp
          have h2 := List.append_cancel_left hp
          simp at h2
        · obtain ⟨r, hr⟩ := itemsSection_under
            (fun oi _ ni pb ii c' hc' => compareJSONSchema_under oi hc') hc
          rw [hp, List.append_assoc] at hr
          have h2 := List.append_cancel_left hr
          simp at h2
        · exact mem_upgradeRequired hc
        · obtain ⟨r, hr⟩ := propsSection_under
            (fun ol _ s _ ns pb ii c' hc' => compareJSONSchema_under s hc') hc
          rw [hp, List.append_assoc] at hr
          have h2 := List.append_cancel_left hr
          simp at h2
        · rw [compareStrField_path hc] at hp
          have h2 := List.append_cancel_left hp
          simp at h2
        · rw [compareStrField_path hc] at hp
          have h2 := List.append_cancel_left hp
          simp at h2

theorem schemaMapGet_id {l : List JSONSchema} {i : String} {ns : JSONSchema}
    (h : schemaMapGet l i = some ns) : ns.id = i := by
  unfold schemaMapGet at h
  have h2 := List.find?_some h
  simpa using h2

/-- Membership in the old-side loop of `compareComponentsSchemas`: every
change is either a whole-schema removal or comes from the recursive
comparison of a matched id, with `isInput` computed by `detectRequiredInput`
on the new document. -/
theorem ccsLoop_mem {opts : Options} {nl : List JSONSchema} {newDoc : Doc} :
    ∀ {ol : List JSONSchema} {l : List Change},
      ccsLoop opts nl newDoc ol = some l → ∀ c ∈ l,
      (∃ s ∈ ol, c = ⟨["components", "schemas", s.id], .removed,
          detectObjectType ["components", "schemas", s.id], .nonBreaking,
          .vschema s, .null⟩)
      ∨ (∃ s ∈ ol, ∃ ns b, schemaMapGet nl s.id = some ns ∧
          detectRequiredInput ns.id newDoc [] 0 = some b ∧
          c ∈ compareJSONSchema opts s ns ["components", "schemas", s.id] b) := by
  intro ol
  induction ol with
  | nil =>
      intro l h c hc
      simp only [ccsLoop] at h
      obtain rfl := Option.some.inj h
      cases hc
  | cons s rest ih =>
      intro l h c hc
      simp only [ccsLoop] at h
      cases hget : schemaMapGet nl s.id with
      | some ns =>
          simp only [hget] at h
          cases hdet : detectRequiredInput ns.id newDoc [] 0 with
          | none => simp only [hdet] at h; simp at h
          | some b =>
              simp only [hdet] at h
              cases hrest : ccsLoop opts nl newDoc rest with
              | none => simp only [hrest] at h; simp at h
              | some csr =>
                  simp only [hrest] at h
                  obtain rfl := Option.some.inj h
                  rcases List.mem_append.mp hc with hc1 | hc2
                  · exact Or.inr ⟨s, List.mem_cons_self s rest, ns, b, hget, hdet, hc1⟩
                  · rcases ih hrest c hc2 with ⟨s', hs', he⟩ | ⟨s', hs', hrec⟩
                    · exact Or.inl ⟨s', List.mem_cons_of_mem _ hs', he⟩
                    · exact Or.inr ⟨s', List.mem_cons_of_mem _ hs', hrec⟩
      | none =>
          simp only [hget] at h
          cases hrest : ccsLoop opts nl newDoc rest with
          | none => simp only [hrest] at h; simp at h
          | some csr =>
              simp only [hrest] at h
              obtain rfl := Option.some.inj h
              rcases List.mem_append.mp hc with hc1 | hc2
              · rw [List.mem_singleton] at hc1
                exact Or.inl ⟨s, List.mem_cons_self s rest, hc1⟩
              · rcases ih hrest c hc2 with ⟨s', hs', he⟩ | ⟨s', hs', hrec⟩
                · exact Or.inl ⟨s', List.mem_cons_of_mem _ hs', he⟩
                · exact Or.inr ⟨s', List.mem_cons_of_mem _ hs', hrec⟩

/-- C3: in the shared-schema comparison, a Change recording a required-list
entry is governed by `detectRequiredInput` on the new document: an Added
entry is Breaking exactly when the schema is reachable as a required input,
a Removed entry is NonBreaking; and the reachability search returns false
as soon as the depth bound of five is exhausted. -/
theorem requiredEntry_severity :
    (∀ (opts : Options) (oldS newS : Option (List JSONSchema))
       (oldDoc newDoc : Doc) (l : List Change) (c : Change) (id k : String),
       compareComponentsSchemas opts oldS newS oldDoc newDoc = some l →
       c ∈ l → c.path = ["components", "schemas", id, "required", k] →
       ∃ b, detectRequiredInput id newDoc [] 0 = some b ∧
         (c.type = .added → (c.criticality = .breaking ↔ b = true)) ∧
         (c.type = .removed → c.criticality = .nonBreaking))
    ∧ ∀ (nm : String) (doc : Doc) (chk : List String) (lvl : Nat),
        5 < lvl → detectRequiredInput nm doc chk lvl = some false := by
  constructor
  · intro opts oldS newS oldDoc newDoc l c id k h hc hp
    simp only [compareComponentsSchemas] at h
    split at h
    · obtain rfl := Option.some.inj h
      rw [mem_compare_toList hc] at hp
      simp at hp
    · cases hloop : ccsLoop opts (newS.getD []) newDoc (oldS.getD []) with
      | none => simp only [hloop] at h; simp at h
      | some matched =>
          simp only [hloop] at h
          obtain rfl := Option.some.inj h
          rcases List.mem_append.mp hc with hcm | hca
          · rcases ccsLoop_mem hloop c hcm with ⟨s, hs, he⟩ | ⟨s, hs, ns, b, hget, hdet, hmem⟩
            · rw [he] at hp
              simp at hp
            · obtain ⟨r, hr⟩ := compareJSONSchema_under s hmem
              rw [hp] at hr
              simp only [List.cons_append, List.nil_append, List.cons.injEq,
                true_and] at hr
              obtain ⟨hid, hrest⟩ := hr
              subst hid
              rw [schemaMapGet_id hget] at hdet
              have hp' : c.path = ["components", "schemas", s.id] ++ ["required", k] := by
                simpa using hp
              obtain ⟨c₀, hc₀, hce⟩ := compareJSONSchema_required hmem hp'
              have hcrit := (compareStringList_spec hc₀).2
              subst hce
              refine ⟨b, hdet, ?_, ?_⟩
              · intro hadd
                by_cases hP : c₀.type = .added ∧ b = true
                · rw [if_pos hP]
                  simp [hP.2]
                · rw [if_neg hP]
                  rw [if_neg hP] at hadd
                  have hb : ¬ b = true := fun hbt => hP ⟨hadd, hbt⟩
                  simp [hcrit, hb]
              · intro hrem
                by_cases hP : c₀.type = .added ∧ b = true
                · rw [if_pos hP] at hrem
                  simp only at hrem
                  rw [hP.1] at hrem
                  exact absurd hrem (by decide)
                · rw [if_neg hP]
                  exact hcrit
          · obtain ⟨ns, hns, he⟩ := List.mem_map.mp hca
            rw [← he] at hp
            simp at hp
  · intro nm doc chk lvl hlvl
    unfold detectRequiredInput
    have h0 : 6 - lvl = 0 := by omega
    rw [h0]
    rfl

def c3s1 : JSONSchema := .mk "S" "" "" "" none none [] none

def c3s2 : JSONSchema := .mk "S" "" "" "" none none ["a"] none

def c3ps : JSONSchema := .mk "" "" "#/components/schemas/S" "" none none [] none

def c3doc : Doc :=
  { openrpc := "1.2.6", info := none, servers := []
  , methods := [
      { name := "m", summary := "", description := "", paramStructure := ""
      , params := [.cd ⟨"p", true, some c3ps, "", ""⟩]
      , result := none, errors := [] } ]
  , components := some { schemas := some [c3s2] } }

def c3chg : Change :=
  ⟨["components", "schemas", "S", "required", "0"], .added, .componentsSchema,
   .breaking, .null, .vstr "a"⟩

/-- Witness for C3: schema `S` is a required parameter of method `m`, so the
entry added to its required list is Breaking, and the depth bound holds. -/
theorem requiredEntry_severity_witness :
    (∃ b, detectRequiredInput "S" c3doc [] 0 = some b ∧
      (c3chg.type = .added → (c3chg.criticality = .breaking ↔ b = true)) ∧
      (c3chg.type = .removed → c3chg.criticality = .nonBreaking))
    ∧ detectRequiredInput "x" c3doc ["S"] 6 = some false := by
  have hcjs : compareJSONSchema ⟨false⟩ c3s1 c3s2
      ["components", "schemas", "S"] true = [c3chg] := by
    rw [compareJSONSchema.eq_def]
    simp only [c3s1, c3s2, c3chg, jeq, itemsSection, propsSection,
      JSONSchema.ref, JSONSchema.id, JSONSchema.type, JSONSchema.items,
      JSONSchema.required, JSONSchema.properties, JSONSchema.title,
      JSONSchema.description]
    rfl
  have hid : c3s1.id = "S" := rfl
  have hget : schemaMapGet [c3s2] "S" = some c3s2 := rfl
  have hdet : detectRequiredInput c3s2.id c3doc [] 0 = some true := rfl
  have hccs : compareComponentsSchemas ⟨false⟩ (some [c3s1]) (some [c3s2])
      c3doc c3doc = some [c3chg] := by
    simp only [compareComponentsSchemas, ccsLoop, Option.getD_some, hid, hget,
      hdet, hcjs]
    rfl
  exact ⟨requiredEntry_severity.1 ⟨false⟩ (some [c3s1]) (some [c3s2]) c3doc
      c3doc [c3chg] c3chg "S" "0" hccs (List.Mem.head _) rfl,
    requiredEntry_severity.2 "x" c3doc ["S"] 6 (by omega)⟩

/-- Witness for C1 at a concrete document pair (a removed method). -/
theorem newDiffBytes_criticality_is_max_witness :
    (((NewDiffBytes ⟨false⟩ c1OldDoc c1NewDoc).getD ⟨.nonBreaking, []⟩).criticality
        = .breaking ↔
      ∃ c ∈ ((NewDiffBytes ⟨false⟩ c1OldDoc c1NewDoc).getD ⟨.nonBreaking, []⟩).changes,
        c.criticality = .breaking)
    ∧ (((NewDiffBytes ⟨false⟩ c1OldDoc c1NewDoc).getD ⟨.nonBreaking, []⟩).criticality
        = .dangerous ↔
      ((∃ c ∈ ((NewDiffBytes ⟨false⟩ c1OldDoc c1NewDoc).getD ⟨.nonBreaking, []⟩).changes,
          c.criticality = .dangerous)
        ∧ ¬ ∃ c ∈ ((NewDiffBytes ⟨false⟩ c1OldDoc c1NewDoc).getD ⟨.nonBreaking, []⟩).changes,
            c.criticality = .breaking))
    ∧ (((NewDiffBytes ⟨false⟩ c1OldDoc c1NewDoc).getD ⟨.nonBreaking, []⟩).changes = [] →
      ((NewDiffBytes ⟨false⟩ c1OldDoc c1NewDoc).getD ⟨.nonBreaking, []⟩).criticality
        = .nonBreaking) :=
  newDiffBytes_criticality_is_max ⟨false⟩ c1OldDoc c1NewDoc _ rfl

end Rpcdiff
